import Mathlib

/-!
Verification development for the Autoencoder repository.

Two parts are covered:

* The lossless entropy-coding engine (Bitstream, BinaryArithmeticCoder,
  LosslessCoder, compression façade).  The repository only declares its C++
  translation units in `kodak_tensorflow/lossless/setup.py`; the C++ sources
  themselves are not part of the excerpt, so the engine is modelled from the
  specification: a 16-bit binary arithmetic coder with E1/E2/E3
  renormalization and pending-bit carry handling, per-context adaptive
  probability estimators, a sign/unary magnitude decomposition driven by
  causal-neighbor contexts, and a self-describing header.

* The dataset builders `create_bsds` (kodak_tensorflow/datasets/bsds/bsds.py)
  and `create_imagenet` (kodak_tensorflow/datasets/imagenet/imagenet.py),
  embedded from the Python source with the external `tools` helpers
  (image reading, color conversion, cropping) abstracted as environment
  functions.
-/

namespace Autoenc

/-! ## Bit-level utilities -/

/-- Value of a bit list read most-significant-bit first. -/
def bitsToNat (l : List Bool) : Nat := l.foldl (fun a b => 2 * a + b.toNat) 0

/-- `n`-bit big-endian representation of `v` (low bits of `v` end the list). -/
def natToBits : Nat → Nat → List Bool
  | 0, _ => []
  | n + 1, v => natToBits n (v / 2) ++ [v % 2 == 1]

/-- Pack a bit list into bytes, most-significant-bit first, padding the final
partial byte with `false` bits.  Modelled from the spec: the Bitstream's
`flush()` "pads the final partial byte with a fixed, documented bit value
and returns the byte buffer". -/
def bitsToBytes (l : List Bool) : List Nat :=
  if l = [] then []
  else bitsToNat (l.take 8 ++ List.replicate (8 - (l.take 8).length) false) ::
       bitsToBytes (l.drop 8)
termination_by l.length
decreasing_by
  simp only [List.length_drop]
  have : l.length ≠ 0 := by simpa [List.length_eq_zero] using (by assumption : ¬ l = [])
  omega

/-- Unpack bytes back into their bit sequence, most-significant-bit first. -/
def bytesToBits (bs : List Nat) : List Bool := (bs.map (natToBits 8)).flatten

/-! ## Error taxonomy (spec §7) -/

/-- Modelled from the spec: the error taxonomy of the missing C++ coder. -/
inductive Err where
  | ExhaustedInput
  | CorruptStream
  | MalformedHeader
  | AlphabetViolation
  | InvalidState
  deriving DecidableEq, Repr

/-! ## Bitstream (spec §4.1) -/

/-- Modelled from the spec: the Bitstream writer's `writeBit(b)` "appends one
bit to the buffer". -/
def writeBit (buf : List Bool) (b : Bool) : List Bool := buf ++ [b]

/-- Modelled from the spec: the Bitstream reader's `readBit()` "returns the
next bit in original order, fails with `ExhaustedInput` when no bits
remain".  `pos` is the read position over the bit sequence `S`. -/
def readBit (S : List Bool) (pos : Nat) : Except Err Bool :=
  if pos < S.length then Except.ok (S.getD pos false) else Except.error Err.ExhaustedInput

/-- Read `n` bits starting at `pos`, accumulating their MSB-first value.
Used by the decoder to fill its 16-bit code-value register. -/
def readAcc (S : List Bool) : Nat → Nat → Nat → Except Err (Nat × Nat)
  | 0, pos, acc => Except.ok (acc, pos)
  | n + 1, pos, acc =>
    match readBit S pos with
    | Except.error e => Except.error e
    | Except.ok b => readAcc S n (pos + 1) (2 * acc + b.toNat)

/-! ## BinaryArithmeticCoder (spec §4.2)

Fixed-precision constants: 16-bit interval registers, probabilities quantized
to 12 fractional bits.  Modelled from the spec: "interval bounds use a fixed
integer width … probability is quantized to a fixed number of fractional
bits matching the estimator's representation". -/

def WTOP : Nat := 65536
def HALFW : Nat := 32768
def QTRW : Nat := 16384
def PDEN : Nat := 4096

/-- Size of the bit-1 subinterval of `[low, high]` under probability `p/PDEN`
of a 1 bit.  The rounding (floor) is shared verbatim by encode and decode,
the correctness-critical contract of spec §4.2. -/
def cut (low high p : Nat) : Nat := (high - low + 1) * p / PDEN

/-- Encoder state: interval registers, pending-bit counter for the classic
carry/underflow case, and the bits emitted so far. -/
structure EncSt where
  low : Nat
  high : Nat
  pending : Nat
  out : List Bool
  deriving Repr, DecidableEq

def encInit : EncSt := ⟨0, 65535, 0, []⟩

/-- Modelled from the spec: one renormalization step of the missing
BinaryArithmeticCoder.  E1 (interval in the lower half) emits a 0 bit plus
the pending 1s; E2 (upper half) emits a 1 bit plus the pending 0s; E3
(straddling the midpoint quarters) defers by "buffering pending bits until
resolved".  When no case applies the step is the identity. -/
def encStep (s : EncSt) : EncSt :=
  if s.high < HALFW then
    ⟨2 * s.low, 2 * s.high + 1, 0, s.out ++ false :: List.replicate s.pending true⟩
  else if HALFW ≤ s.low then
    ⟨2 * s.low - WTOP, 2 * s.high + 1 - WTOP, 0, s.out ++ true :: List.replicate s.pending false⟩
  else if QTRW ≤ s.low ∧ s.high < 3 * QTRW then
    ⟨2 * s.low - HALFW, 2 * s.high + 1 - HALFW, s.pending + 1, s.out⟩
  else s

/-- Full renormalization: from any reachable interval, sixteen steps reach a
fixed point of `encStep` (proved below). -/
def encRenorm (s : EncSt) : EncSt := encStep^[16] s

/-- Narrow the interval to the subinterval of the coded bit. -/
def narrow (s : EncSt) (b : Bool) (p : Nat) : EncSt :=
  let k := cut s.low s.high p
  if b then { s with high := s.low + k - 1 } else { s with low := s.low + k }

/-- Modelled from the spec: `encodeBit(bit, probabilityOf1)` "narrows the
[low, high) interval to the sub-interval corresponding to `bit`", then
"renormalizes by emitting leading bits that have become fully determined". -/
def encodeBit (s : EncSt) (b : Bool) (p : Nat) : EncSt := encRenorm (narrow s b p)

/-- Run the arithmetic coder over a list of (bit, probability) decisions. -/
def encSteps : List (Bool × Nat) → EncSt → EncSt
  | [], s => s
  | (b, p) :: r, s => encSteps r (encodeBit s b p)

/-- Modelled from the spec: at flush "enough trailing bits are emitted to
disambiguate the final interval so decode reconstructs the same bit
sequence".  The closed form resolves the pending bits and then emits the
sixteen bits of `low`; the decoder consumes exactly these. -/
def flushBits (s : EncSt) : List Bool :=
  s.out ++ natToBits (s.pending + 16) (HALFW * (2 ^ s.pending - 1) + s.low)

/-- Decoder state: mirrored interval registers, the 16-bit code-value window,
and the read position in the bit sequence. -/
structure DecSt where
  low : Nat
  high : Nat
  val : Nat
  pos : Nat
  deriving Repr, DecidableEq

/-- Modelled from the spec: one decoder renormalization step, performing "the
same renormalization reading from the Bitstream": the interval update
mirrors `encStep` and the value register shifts in the next stream bit. -/
def decStep (S : List Bool) (d : DecSt) : Except Err DecSt :=
  if d.high < HALFW then
    match readBit S d.pos with
    | Except.error e => Except.error e
    | Except.ok b => Except.ok ⟨2 * d.low, 2 * d.high + 1, 2 * d.val + b.toNat, d.pos + 1⟩
  else if HALFW ≤ d.low then
    match readBit S d.pos with
    | Except.error e => Except.error e
    | Except.ok b =>
        Except.ok ⟨2 * d.low - WTOP, 2 * d.high + 1 - WTOP, 2 * d.val - WTOP + b.toNat, d.pos + 1⟩
  else if QTRW ≤ d.low ∧ d.high < 3 * QTRW then
    match readBit S d.pos with
    | Except.error e => Except.error e
    | Except.ok b =>
        Except.ok ⟨2 * d.low - HALFW, 2 * d.high + 1 - HALFW, 2 * d.val - HALFW + b.toNat, d.pos + 1⟩
  else Except.ok d

/-- Iterated decoder renormalization steps. -/
def decIter (S : List Bool) : Nat → DecSt → Except Err DecSt
  | 0, d => Except.ok d
  | n + 1, d =>
    match decStep S d with
    | Except.error e => Except.error e
    | Except.ok d' => decIter S n d'

/-- Modelled from the spec: `decodeBit(probabilityOf1)` "determines which
sub-interval the bitstream's consumed value falls into, returns the
corresponding bit, and performs the same renormalization reading from the
Bitstream". -/
def decodeBit (S : List Bool) (d : DecSt) (p : Nat) : Except Err (Bool × DecSt) :=
  let k := cut d.low d.high p
  if d.val ≤ d.low + k - 1 then
    match decIter S 16 { d with high := d.low + k - 1 } with
    | Except.error e => Except.error e
    | Except.ok d' => Except.ok (true, d')
  else
    match decIter S 16 { d with low := d.low + k } with
    | Except.error e => Except.error e
    | Except.ok d' => Except.ok (false, d')

/-! ## LosslessCoder (spec §4.3): contexts, adaptive estimators,
sign/magnitude decomposition -/

/-- Modelled from the spec: per-context probability estimator state, "a
fixed-point fraction" P(bit = 1) with denominator `PDEN`. -/
def Tab := Nat → Nat

/-- Neutral initial table: every context starts at probability one half. -/
def tab0 : Tab := fun _ => 2048

/-- Point update of the context table. -/
def upd (t : Tab) (c v : Nat) : Tab := fun x => if x = c then v else t x

/-- Modelled from the spec: the estimator's shift-based exponential update
"toward the observed bit, clamped away from 0 and 1": the new probability
stays within [1, PDEN - 1] (proved below). -/
def adapt (p : Nat) (b : Bool) : Nat :=
  if b then p + (PDEN - p) / 32 else p - p / 32

/-- Activity level of a causal neighbor symbol, saturated at 2. -/
def act (x : Int) : Nat := min x.natAbs 2

/-- Modelled from the spec: the context of the element about to be coded,
"a deterministic function of already-decoded neighbor symbols (e.g., left
and above)".  `acc` is the causal prefix in raster order, its length the
current position. -/
def ctxBase (cols : Nat) (acc : List Int) : Nat :=
  let i := acc.length
  let leftN : Int := if i % cols ≠ 0 then acc.getD (i - 1) 0 else 0
  let upN : Int := if cols ≤ i then acc.getD (i - cols) 0 else 0
  3 * act leftN + act upN

/-- Context of the `j`-th magnitude continuation decision (spec: "the decision
index within the current symbol's sequence" selects distinct contexts). -/
def ctxMag (base j : Nat) : Nat := 4 * base + min j 3

/-- Context of the sign decision. -/
def ctxSign (base : Nat) : Nat := 36 + base

/-- Modelled from the spec: the magnitude decomposition of one symbol as
(bit, probability) decisions — `m` continue bits followed by one stop bit,
each under its context's current estimate, updating the estimator after
every decision.  Returns the decisions and the updated table. -/
def buildMag (base : Nat) : Tab → Nat → Nat → List (Bool × Nat) × Tab
  | tab, j, 0 =>
    let c := ctxMag base j
    ([(false, tab c)], upd tab c (adapt (tab c) false))
  | tab, j, m + 1 =>
    let c := ctxMag base j
    let r := buildMag base (upd tab c (adapt (tab c) true)) (j + 1) m
    ((true, tab c) :: r.1, r.2)

/-- Modelled from the spec: the full decision sequence of one symbol — the
magnitude decomposition followed, for nonzero symbols, by a sign decision
(true codes a negative symbol). -/
def buildSym (tab : Tab) (base : Nat) (x : Int) : List (Bool × Nat) × Tab :=
  let r := buildMag base tab 0 x.natAbs
  if x = 0 then r
  else
    let c := ctxSign base
    (r.1 ++ [(decide (x < 0), r.2 c)], upd r.2 c (adapt (r.2 c) (decide (x < 0))))

/-- Modelled from the spec: decisions of a whole map in raster scan order,
with each element's context derived from the already-processed prefix. -/
def buildAll (cols : Nat) : Tab → List Int → List Int → List (Bool × Nat) × Tab
  | tab, _, [] => ([], tab)
  | tab, acc, x :: rest =>
    let r1 := buildSym tab (ctxBase cols acc) x
    let r2 := buildAll cols r1.2 (acc ++ [x]) rest
    (r1.1 ++ r2.1, r2.2)

/-- Modelled from the spec: the decoder's magnitude loop — reads continue
bits until the stop bit, failing with `CorruptStream` once "a symbol
decomposition … cannot terminate within the declared bound" (`allow` is the
remaining allowance below the alphabet bound). -/
def decUn (S : List Bool) (base : Nat) : Nat → Nat → DecSt → Tab →
    Except Err (Nat × DecSt × Tab)
  | j, 0, d, tab =>
    match decodeBit S d (tab (ctxMag base j)) with
    | Except.error e => Except.error e
    | Except.ok (b, d') =>
      if b then Except.error Err.CorruptStream
      else Except.ok (0, d', upd tab (ctxMag base j) (adapt (tab (ctxMag base j)) b))
  | j, a + 1, d, tab =>
    match decodeBit S d (tab (ctxMag base j)) with
    | Except.error e => Except.error e
    | Except.ok (b, d') =>
      if b then
        match decUn S base (j + 1) a d'
            (upd tab (ctxMag base j) (adapt (tab (ctxMag base j)) b)) with
        | Except.error e => Except.error e
        | Except.ok (m, d2, t2) => Except.ok (m + 1, d2, t2)
      else Except.ok (0, d', upd tab (ctxMag base j) (adapt (tab (ctxMag base j)) b))

/-- Decode one symbol: magnitude, then the sign decision when nonzero. -/
def decSym (S : List Bool) (base bound : Nat) (d : DecSt) (tab : Tab) :
    Except Err (Int × DecSt × Tab) :=
  match decUn S base 0 bound d tab with
  | Except.error e => Except.error e
  | Except.ok (m, d1, t1) =>
    if m = 0 then Except.ok (0, d1, t1)
    else
      let c := ctxSign base
      match decodeBit S d1 (t1 c) with
      | Except.error e => Except.error e
      | Except.ok (neg, d2) =>
        Except.ok (if neg then -(m : Int) else (m : Int), d2, upd t1 c (adapt (t1 c) neg))

/-- Decode `k` symbols in raster order, re-deriving each context from the
symbols already decoded (the causal-context contract of spec §4.3). -/
def decSyms (S : List Bool) (cols bound : Nat) : Nat → DecSt → Tab → List Int →
    Except Err (List Int × DecSt × Tab)
  | 0, d, tab, acc => Except.ok (acc, d, tab)
  | k + 1, d, tab, acc =>
    match decSym S (ctxBase cols acc) bound d tab with
    | Except.error e => Except.error e
    | Except.ok (x, d1, t1) => decSyms S cols bound k d1 t1 (acc ++ [x])

/-! ## Compression façade (spec §4.4) -/

/-- Map configuration: grid dimensions and the alphabet bound `L`
(symbols lie in [-L, L]). -/
structure Cfg where
  rows : Nat
  cols : Nat
  bound : Nat
  deriving DecidableEq, Repr

/-- Supported configurations: positive dimensions that fit the two-byte
header fields, bound within the supported one-byte range. -/
def cfgOk (c : Cfg) : Bool :=
  decide (1 ≤ c.rows ∧ c.rows ≤ 65535 ∧ 1 ≤ c.cols ∧ c.cols ≤ 65535 ∧
          1 ≤ c.bound ∧ c.bound ≤ 255)

/-- Modelled from the spec: the fixed binary header layout — "number of
dimensions, each dimension's extent, alphabet bound" (two dimensions here,
two bytes each, big-endian, one byte of bound). -/
def headerBytes (c : Cfg) : List Nat :=
  [c.rows / 256, c.rows % 256, c.cols / 256, c.cols % 256, c.bound]

/-- The coded-payload bit sequence of a map. -/
def payloadBits (cols : Nat) (m : List Int) : List Bool :=
  flushBits (encSteps (buildAll cols tab0 [] m).1 encInit)

/-- Modelled from the spec: the façade's `encode(map, config) -> bytes`.
Symbols beyond the declared bound fail with `AlphabetViolation`; an
unsupported configuration or mismatched shape is API misuse
(`InvalidState`). -/
def encode (cfg : Cfg) (m : List Int) : Except Err (List Nat) :=
  if ¬ cfgOk cfg then Except.error Err.InvalidState
  else if m.length ≠ cfg.rows * cfg.cols then Except.error Err.InvalidState
  else if ¬ m.all (fun x => x.natAbs ≤ cfg.bound) then Except.error Err.AlphabetViolation
  else Except.ok (headerBytes cfg ++ bitsToBytes (payloadBits cfg.cols m))

/-- Parsed header fields (rows, cols, bound) of a byte buffer. -/
def parseHdr (bs : List Nat) : Nat × Nat × Nat :=
  (256 * bs.getD 0 0 + bs.getD 1 0, 256 * bs.getD 2 0 + bs.getD 3 0, bs.getD 4 0)

/-- Modelled from the spec: header validation — the header is bad when it is
unreadable (buffer too short), has a nonpositive dimension, a bound outside
the supported range, or is inconsistent with the supplied configuration. -/
def hdrBad (cfg : Cfg) (bs : List Nat) : Bool :=
  decide (bs.length < 5) ||
    !(decide (1 ≤ (parseHdr bs).1 ∧ 1 ≤ (parseHdr bs).2.1 ∧
              1 ≤ (parseHdr bs).2.2 ∧ (parseHdr bs).2.2 ≤ 255 ∧
              (parseHdr bs).1 = cfg.rows ∧ (parseHdr bs).2.1 = cfg.cols ∧
              (parseHdr bs).2.2 = cfg.bound))

/-- Decode the payload bit sequence of a validated header. -/
def decodePayload (S : List Bool) (cols bound count : Nat) : Except Err (List Int) :=
  match readAcc S 16 0 0 with
  | Except.error e => Except.error e
  | Except.ok (v, pos) =>
    match decSyms S cols bound count ⟨0, 65535, v, pos⟩ tab0 [] with
    | Except.error e => Except.error e
    | Except.ok (res, _, _) => Except.ok res

/-- Modelled from the spec: the façade's `decode(bytes, config) -> map`,
which "validates header sanity … before touching the payload" and "fails
with `MalformedHeader` on an unreadable or inconsistent header". -/
def decode (cfg : Cfg) (bs : List Nat) : Except Err (List Int) :=
  if hdrBad cfg bs then Except.error Err.MalformedHeader
  else decodePayload (bytesToBits (bs.drop 5)) cfg.cols cfg.bound (cfg.rows * cfg.cols)

/-! ## Ghost state for the correctness proofs -/

/-- Number of renormalization scalings performed so far: every emitted bit
and every pending bit records one scaling. -/
def dS (s : EncSt) : Nat := s.out.length + s.pending

/-- Accumulated affine offset of the current interval inside the absolute
code space: with `p` pending bits and emitted value `E`, the absolute
integer interval at resolution `dS + 16` bits is `[MM + low, MM + high]`. -/
def MM (s : EncSt) : Nat :=
  2 ^ (16 + s.pending) * bitsToNat s.out + HALFW * (2 ^ s.pending - 1)

/-- Interval invariant maintained between coding calls (spec §3): `low ≤ high`
always, registers within the fixed precision, and width strictly above the
renormalization threshold. -/
def EncInv (s : EncSt) : Prop :=
  s.low ≤ s.high ∧ s.high < WTOP ∧ QTRW < s.high - s.low + 1

instance (s : EncSt) : Decidable (EncInv s) := by unfold EncInv; infer_instance

/-- Registers in range: the weak validity maintained inside renormalization. -/
def LH (s : EncSt) : Prop := s.low ≤ s.high ∧ s.high < WTOP

instance (s : EncSt) : Decidable (LH s) := by unfold LH; infer_instance

/-- The final code value, viewed through the window of state `s` (the leading
`dS s + 16` bits of `S`), lies inside the absolute interval of `s`. -/
def inWindow (S : List Bool) (s : EncSt) : Prop :=
  dS s + 16 ≤ S.length ∧
  MM s + s.low ≤ bitsToNat S / 2 ^ (S.length - (dS s + 16)) ∧
  bitsToNat S / 2 ^ (S.length - (dS s + 16)) ≤ MM s + s.high

/-- Decoder-side interval invariant: the code value lies inside the interval,
which satisfies the same width bounds as the encoder's. -/
def DecInv (d : DecSt) : Prop :=
  d.low ≤ d.val ∧ d.val ≤ d.high ∧ d.high < WTOP ∧ QTRW < d.high - d.low + 1

instance (d : DecSt) : Decidable (DecInv d) := by unfold DecInv; infer_instance

/-- A fixed point of the renormalization step. -/
def renormDone (low high : Nat) : Prop :=
  ¬ high < HALFW ∧ ¬ HALFW ≤ low ∧ ¬ (QTRW ≤ low ∧ high < 3 * QTRW)

instance (low high : Nat) : Decidable (renormDone low high) := by
  unfold renormDone; infer_instance

/-- Coupling between the decoder state and the encoder state it simulates,
relative to the final bit sequence `S`: equal interval registers, the read
position sixteen bits past the scaling count, and the value register equal
to the consumed prefix of `S` minus the accumulated affine offset. -/
def Coup (S : List Bool) (s : EncSt) (d : DecSt) : Prop :=
  d.low = s.low ∧ d.high = s.high ∧ d.pos = dS s + 16 ∧
  s.low ≤ d.val ∧ d.val + MM s = bitsToNat (S.take d.pos)

/-- All probabilities of a decision list are within the clamped range. -/
def dsOk (l : List (Bool × Nat)) : Prop := ∀ q ∈ l, 1 ≤ q.2 ∧ q.2 ≤ PDEN - 1

/-- The encode pass that remains to run after state `s`: some further valid
decision sequence followed by the flush produces the complete bit
sequence `S`. -/
def Future (S : List Bool) (s : EncSt) : Prop :=
  ∃ ps, dsOk ps ∧ flushBits (encSteps ps s) = S

/-- All estimates of a context table are within the clamped range. -/
def tabOk (t : Tab) : Prop := ∀ c, 1 ≤ t c ∧ t c ≤ PDEN - 1

/-- The next `k` decisions decoded from state `d` under table `tab` all come
out as continue (1) bits: the decomposition does not terminate within `k`
decisions. -/
def allOnes (S : List Bool) (base : Nat) : Nat → Nat → DecSt → Tab → Bool
  | _, 0, _, _ => true
  | j, k + 1, d, tab =>
    match decodeBit S d (tab (ctxMag base j)) with
    | Except.ok (b, d') =>
      if b then allOnes S base (j + 1) k d' (upd tab (ctxMag base j) (adapt (tab (ctxMag base j)) b))
      else false
    | Except.error _ => false

/-! ## Dataset builders (from the Python source under src/) -/

/-- A luminance image: dimensions plus a total pixel function. -/
@[ext]
structure Img where
  rows : Nat
  cols : Nat
  px : Nat → Nat → Nat

/-- `luminance[1:, 1:]` — drop the first row and the first column
(bsds.py lines 96 and 98). -/
def cropTL (g : Img) : Img := ⟨g.rows - 1, g.cols - 1, fun r c => g.px (r + 1) (c + 1)⟩

/-- `numpy.rot90`: counterclockwise quarter turn, `out[r][c] = in[c][n-1-r]`
for an input with `n` columns (bsds.py line 98). -/
def rot90 (g : Img) : Img := ⟨g.cols, g.rows, fun r c => g.px c (g.cols - 1 - r)⟩

/-- Storing pixels into a `numpy.uint8` array wraps them modulo 256. -/
def toU8 (g : Img) : Img := ⟨g.rows, g.cols, fun r c => g.px r c % 256⟩

/-- Python exceptions surfaced by the builders. -/
inductive PyErr where
  | runtimeError
  | valueError
  | indexError
  deriving DecidableEq, Repr

/-- Environment of `create_bsds`: output-file existence flags, the sorted jpg
listing (names as opaque ids), and the luminance of each image
(`tls.read_image_mode` composed with `tls.rgb_to_ycbcr(...)[:, :, 0]`,
abstracted — the `tools` module is outside the excerpt). -/
structure BsdsEnv where
  bsdsExists : Bool
  rotExists : Bool
  names : List Nat
  lum : Nat → Img

/-- Observable outcome of a `create_bsds` run: images read (in order), the
two files written (if any), and the exception raised (if any). -/
structure BsdsRes where
  reads : List Nat
  savedSet : Option (List Img)
  savedRot : Option (List Nat)
  err : Option PyErr

/-- The per-image loop of `create_bsds` (bsds.py lines 80-101): a 321x481
image is cropped; a 481x321 image is cropped and rotated, its index
recorded; any other shape raises `ValueError` immediately. -/
def bsdsLoop (env : BsdsEnv) : List Nat → Nat → List Img → List Nat → List Nat → BsdsRes
  | [], _, imgs, rots, reads => ⟨reads, some imgs, some rots, none⟩
  | n :: rest, i, imgs, rots, reads =>
    let g := env.lum n
    if g.rows = 321 ∧ g.cols = 481 then
      bsdsLoop env rest (i + 1) (imgs ++ [toU8 (cropTL g)]) rots (reads ++ [n])
    else if g.rows = 481 ∧ g.cols = 321 then
      bsdsLoop env rest (i + 1) (imgs ++ [toU8 (rot90 (cropTL g))]) (rots ++ [i]) (reads ++ [n])
    else ⟨reads ++ [n], none, none, some PyErr.valueError⟩

/-- `create_bsds` (bsds.py lines 50-106): no-op when both outputs exist;
`RuntimeError` when the sorted jpg listing does not have exactly 100 names;
otherwise the loop runs and, on success, both files are written. -/
def create_bsds (env : BsdsEnv) : BsdsRes :=
  if env.bsdsExists ∧ env.rotExists then ⟨[], none, none, none⟩
  else if env.names.length ≠ 100 then ⟨[], none, none, some PyErr.runtimeError⟩
  else bsdsLoop env env.names 0 [] [] []

/-- Environment of `create_imagenet`: output-file existence flags, the sorted
listing, and the combined read-and-crop helper (`tls.read_image_mode` plus
`tls.crop_option_2d`, abstracted): `none` models the caught
`TypeError`/`ValueError` (the image is skipped), and the `Bool` argument is
the `is_random` flag the code passes for training-set images. -/
structure InetEnv where
  trainExists : Bool
  validExists : Bool
  names : List Nat
  proc : Nat → Bool → Option Img

/-- Observable outcome of a `create_imagenet` run. -/
structure InetRes where
  reads : List Nat
  wroteTrain : Option (List Img)
  wroteValid : Option (List Img)
  err : Option PyErr

/-- The per-image loop of `create_imagenet` (imagenet.py lines 70-97):
failures are skipped, successes are stored at index `i` (out-of-bounds
storage — only possible when `nb_total = 0` — raises `IndexError` exactly
as the numpy assignment would), and the loop breaks once `i = nb_total`. -/
def inetLoop (env : InetEnv) (nbT nbTot : Nat) :
    List Nat → List Img → List Nat → List Img × List Nat × Option PyErr
  | [], acc, reads => (acc, reads, none)
  | n :: rest, acc, reads =>
    match env.proc n (decide (acc.length < nbT)) with
    | none => inetLoop env nbT nbTot rest acc (reads ++ [n])
    | some g =>
      if acc.length < nbTot then
        if acc.length + 1 = nbTot then (acc ++ [g], reads ++ [n], none)
        else inetLoop env nbT nbTot rest (acc ++ [g]) (reads ++ [n])
      else (acc, reads ++ [n], some PyErr.indexError)

/-- `create_imagenet` (imagenet.py lines 53-111): no-op when both outputs
exist; `RuntimeError` when the loop ends with fewer than
`nb_training + nb_validation` stored crops, in which case nothing is
written; otherwise the first `nb_training` crops go to the training file
and the remaining `nb_validation` to the validation file. -/
def create_imagenet (env : InetEnv) (nbT nbV : Nat) : InetRes :=
  if env.trainExists ∧ env.validExists then ⟨[], none, none, none⟩
  else
    let r := inetLoop env nbT (nbT + nbV) env.names [] []
    match r.2.2 with
    | some e => ⟨r.2.1, none, none, some e⟩
    | none =>
      if r.1.length ≠ nbT + nbV then ⟨r.2.1, none, none, some PyErr.runtimeError⟩
      else ⟨r.2.1, some (r.1.take nbT), some (r.1.drop nbT), none⟩

/-- The subsequence of successfully read-and-cropped images of a listing,
with the `is_random` flag evolving exactly as in the run. -/
def succList (env : InetEnv) (nbT : Nat) : List Nat → Nat → List Img
  | [], _ => []
  | n :: rest, i =>
    match env.proc n (decide (i < nbT)) with
    | none => succList env nbT rest i
    | some g => g :: succList env nbT rest (i + 1)

/-- Good shapes for a BSDS test image. -/
def goodShape (g : Img) : Bool := decide ((g.rows = 321 ∧ g.cols = 481) ∨ (g.rows = 481 ∧ g.cols = 321))

/-- Sideways BSDS images (the ones that get rotated). -/
def sideways (g : Img) : Bool := decide (g.rows = 481 ∧ g.cols = 321)

/-- Indices (from `i`) of the sideways images in a listing. -/
def rotIdx (env : BsdsEnv) : List Nat → Nat → List Nat
  | [], _ => []
  | n :: rest, i =>
    if sideways (env.lum n) then i :: rotIdx env rest (i + 1) else rotIdx env rest (i + 1)

/-- The luminance slice `create_bsds` stores for one image. -/
def bsdsSlice (g : Img) : Img :=
  if g.rows = 321 ∧ g.cols = 481 then toU8 (cropTL g) else toU8 (rot90 (cropTL g))

/-- The success/error contract of `create_bsds` (bsds.py lines 64-106),
stated over the observable outcome: `RuntimeError` exactly when the sorted
listing does not have 100 names; given 100 names, `ValueError` exactly when
some image has an unsupported shape; on success the saved set holds the 100
cropped (and, for sideways images, rotated) uint8 luminance slices in
listing order, and the saved rotation list holds exactly the sideways
indices. -/
def C9Post (env : BsdsEnv) : Prop :=
  ((create_bsds env).err = some PyErr.runtimeError ↔ env.names.length ≠ 100) ∧
  (env.names.length = 100 →
    ((create_bsds env).err = some PyErr.valueError ↔
      ¬ ∀ n ∈ env.names, goodShape (env.lum n) = true) ∧
    ((∀ n ∈ env.names, goodShape (env.lum n) = true) →
      (create_bsds env).reads = env.names ∧
      (create_bsds env).savedSet = some (env.names.map (fun n => bsdsSlice (env.lum n))) ∧
      (create_bsds env).savedRot = some (rotIdx env env.names 0) ∧
      (create_bsds env).err = none ∧
      (∀ g ∈ env.names.map (fun n => bsdsSlice (env.lum n)),
        g.rows = 320 ∧ g.cols = 480 ∧ ∀ r c, g.px r c < 256) ∧
      (∀ k, k ∈ rotIdx env env.names 0 ↔
        k < 100 ∧ sideways (env.lum (env.names.getD k 0)) = true)))

/-- The success/error contract of `create_imagenet` (imagenet.py lines
70-111), stated over the observable outcome: `RuntimeError` exactly when the
listing yields fewer successful crops than requested, and then nothing is
written; on success the training file holds the first `nbT` successful
crops and the validation file the next `nbV`, a partition with no crop in
both. -/
def C10Post (env : InetEnv) (nbT nbV : Nat) : Prop :=
  ((create_imagenet env nbT nbV).err = some PyErr.runtimeError ↔
    (succList env nbT env.names 0).length < nbT + nbV) ∧
  ((create_imagenet env nbT nbV).err = some PyErr.runtimeError →
    (create_imagenet env nbT nbV).wroteTrain = none ∧
    (create_imagenet env nbT nbV).wroteValid = none) ∧
  ((create_imagenet env nbT nbV).err = none →
    (create_imagenet env nbT nbV).wroteTrain =
      some ((succList env nbT env.names 0).take nbT) ∧
    (create_imagenet env nbT nbV).wroteValid =
      some (((succList env nbT env.names 0).take (nbT + nbV)).drop nbT) ∧
    ((succList env nbT env.names 0).take nbT).length = nbT ∧
    (((succList env nbT env.names 0).take (nbT + nbV)).drop nbT).length = nbV ∧
    (succList env nbT env.names 0).take nbT ++
        ((succList env nbT env.names 0).take (nbT + nbV)).drop nbT =
      (succList env nbT env.names 0).take (nbT + nbV))

/-- Equality of fallible results is decidable when both components are. -/
instance {ε α : Type} [DecidableEq ε] [DecidableEq α] : DecidableEq (Except ε α) := fun x y =>
  match x, y with
  | Except.ok a, Except.ok b =>
    if h : a = b then isTrue (by rw [h]) else isFalse (fun hc => h (by injection hc))
  | Except.ok _, Except.error _ => isFalse (fun hc => Except.noConfusion hc)
  | Except.error _, Except.ok _ => isFalse (fun hc => Except.noConfusion hc)
  | Except.error e, Except.error f =>
    if h : e = f then isTrue (by rw [h]) else isFalse (fun hc => h (by injection hc))

/-! ## Lemmas: bit-level utilities -/

theorem bitsToNat_acc (l : List Bool) (x : Nat) :
    l.foldl (fun a b => 2 * a + b.toNat) x = x * 2 ^ l.length + bitsToNat l := by
  induction l generalizing x with
  | nil => simp [bitsToNat]
  | cons b t ih =>
    simp only [List.foldl_cons, List.length_cons, bitsToNat, Nat.mul_zero, Nat.zero_add]
    rw [ih (2 * x + b.toNat), ih b.toNat]
    ring

theorem bitsToNat_cons (b : Bool) (l : List Bool) :
    bitsToNat (b :: l) = b.toNat * 2 ^ l.length + bitsToNat l := by
  simp only [bitsToNat, List.foldl_cons]
  simpa using bitsToNat_acc l b.toNat

theorem bitsToNat_append (a b : List Bool) :
    bitsToNat (a ++ b) = bitsToNat a * 2 ^ b.length + bitsToNat b := by
  simp only [bitsToNat, List.foldl_append]
  exact bitsToNat_acc b (List.foldl (fun a b => 2 * a + b.toNat) 0 a)

theorem bitsToNat_lt (l : List Bool) : bitsToNat l < 2 ^ l.length := by
  induction l with
  | nil => simp [bitsToNat]
  | cons b t ih =>
    rw [bitsToNat_cons]
    have : b.toNat ≤ 1 := Bool.toNat_le b
    have h2 : (2:Nat) ^ (b :: t).length = 2 ^ t.length + 2 ^ t.length := by
      simp [List.length_cons, pow_succ]; ring
    simp only [List.length_cons]
    calc b.toNat * 2 ^ t.length + bitsToNat t
        ≤ 1 * 2 ^ t.length + bitsToNat t := by
          exact Nat.add_le_add_right (Nat.mul_le_mul_right _ this) _
      _ < 2 ^ t.length + 2 ^ t.length := by omega
      _ = 2 ^ (t.length + 1) := by ring

theorem bitsToNat_replicate_false (k : Nat) : bitsToNat (List.replicate k false) = 0 := by
  induction k with
  | zero => simp [bitsToNat]
  | succ n ih => rw [List.replicate_succ, bitsToNat_cons]; simpa using ih

theorem bitsToNat_replicate_true (k : Nat) : bitsToNat (List.replicate k true) = 2 ^ k - 1 := by
  induction k with
  | zero => simp [bitsToNat]
  | succ n ih =>
    rw [List.replicate_succ, bitsToNat_cons, ih]
    simp only [List.length_replicate, Bool.toNat_true]
    have : 1 ≤ (2:Nat) ^ n := Nat.one_le_two_pow
    rw [pow_succ]
    omega

theorem natToBits_length (n v : Nat) : (natToBits n v).length = n := by
  induction n generalizing v with
  | zero => simp [natToBits]
  | succ k ih => simp [natToBits, ih]

theorem bitsToNat_natToBits (n v : Nat) (h : v < 2 ^ n) :
    bitsToNat (natToBits n v) = v := by
  induction n generalizing v with
  | zero => simp [natToBits, bitsToNat]; omega
  | succ k ih =>
    simp only [natToBits, bitsToNat_append]
    rw [ih (v / 2) (by rw [pow_succ] at h; omega)]
    have hb : bitsToNat [v % 2 == 1] = v % 2 := by
      rcases Nat.mod_two_eq_zero_or_one v with h2 | h2 <;> simp [h2, bitsToNat]
    simp only [List.length_singleton, pow_one, hb]
    omega

theorem natToBits_bitsToNat (l : List Bool) : natToBits l.length (bitsToNat l) = l := by
  induction l using List.reverseRecOn with
  | nil => simp [natToBits, bitsToNat]
  | append_singleton t b ih =>
    rw [bitsToNat_append]
    simp only [List.length_append, List.length_singleton, natToBits]
    have hb : bitsToNat [b] = b.toNat := by cases b <;> simp [bitsToNat]
    have h2 : (bitsToNat t * 2 ^ 1 + bitsToNat [b]) / 2 = bitsToNat t := by
      rw [hb]; cases b <;> simp <;> omega
    have h3 : (bitsToNat t * 2 ^ 1 + bitsToNat [b]) % 2 = b.toNat := by
      rw [hb]; cases b <;> simp [Nat.add_mul_mod_self_left] <;> omega
    rw [h2, h3, ih]
    cases b <;> simp

theorem bitsToNat_take_succ (S : List Bool) (pos : Nat) (h : pos < S.length) :
    bitsToNat (S.take (pos + 1)) = 2 * bitsToNat (S.take pos) + (S.getD pos false).toNat := by
  have : S.take (pos + 1) = S.take pos ++ [S.getD pos false] := by
    rw [List.take_succ]
    congr 1
    rw [List.getD_eq_getElem?_getD]
    simp [List.getElem?_eq_getElem h]
  rw [this, bitsToNat_append]
  simp only [List.length_singleton, pow_one]
  have hb : bitsToNat [S.getD pos false] = (S.getD pos false).toNat := by
    cases S.getD pos false <;> simp [bitsToNat]
  omega

theorem bitsToNat_take_div (S : List Bool) (k : Nat) (h : k ≤ S.length) :
    bitsToNat (S.take k) = bitsToNat S / 2 ^ (S.length - k) := by
  have key : bitsToNat S = bitsToNat (S.take k) * 2 ^ (S.length - k) + bitsToNat (S.drop k) := by
    conv_lhs => rw [← List.take_append_drop k S]
    rw [bitsToNat_append, List.length_drop]
  have hD : bitsToNat (S.drop k) < 2 ^ (S.length - k) := by
    rw [← List.length_drop]; exact bitsToNat_lt _
  rw [key, Nat.add_comm, Nat.add_mul_div_right _ _ (Nat.pos_pow_of_pos _ (by norm_num)),
      Nat.div_eq_of_lt hD, Nat.zero_add]

/-! ## Lemmas: byte packing -/

theorem bytesToBits_nil : bytesToBits [] = [] := rfl

theorem bytesToBits_cons (b : Nat) (bs : List Nat) :
    bytesToBits (b :: bs) = natToBits 8 b ++ bytesToBits bs := by
  simp [bytesToBits]

theorem bytesToBits_length (bs : List Nat) : (bytesToBits bs).length = 8 * bs.length := by
  induction bs with
  | nil => simp [bytesToBits]
  | cons b t ih => rw [bytesToBits_cons]; simp [natToBits_length, ih]; ring

theorem bytesToBits_take (bs : List Nat) (n : Nat) :
    bytesToBits (bs.take n) = (bytesToBits bs).take (8 * n) := by
  induction bs generalizing n with
  | nil => simp [bytesToBits]
  | cons b t ih =>
    cases n with
    | zero => simp [bytesToBits]
    | succ m =>
      rw [List.take_succ_cons, bytesToBits_cons, bytesToBits_cons, ih m]
      rw [List.take_append_eq_append_take]
      have h8 : (natToBits 8 b).length = 8 := natToBits_length 8 b
      have : 8 * (m + 1) = 8 + 8 * m := by ring
      rw [this]
      congr 1
      · rw [List.take_of_length_le (by omega)]
      · congr 1; omega

theorem bytesToBits_bitsToBytes (l : List Bool) :
    ∃ k, k < 8 ∧ bytesToBits (bitsToBytes l) = l ++ List.replicate k false := by
  suffices H : ∀ n (l : List Bool), l.length ≤ n →
      ∃ k, k < 8 ∧ bytesToBits (bitsToBytes l) = l ++ List.replicate k false from
    H l.length l le_rfl
  intro n
  induction n with
  | zero =>
    intro l hl
    have : l = [] := List.length_eq_zero.mp (by omega)
    subst this
    exact ⟨0, by norm_num, by simp [bitsToBytes, bytesToBits]⟩
  | succ m ih =>
    intro l hl
    by_cases hnil : l = []
    · subst hnil; exact ⟨0, by norm_num, by simp [bitsToBytes, bytesToBits]⟩
    · rw [bitsToBytes, if_neg hnil, bytesToBits_cons]
      by_cases h8 : 8 ≤ l.length
      · have htk : (l.take 8).length = 8 := by simp [List.length_take]; omega
        have hch : l.take 8 ++ List.replicate (8 - (l.take 8).length) false = l.take 8 := by
          rw [htk]; simp
        obtain ⟨k, hk, hrec⟩ := ih (l.drop 8) (by simp [List.length_drop]; omega)
        refine ⟨k, hk, ?_⟩
        rw [hch]
        have hnb : natToBits 8 (bitsToNat (l.take 8)) = l.take 8 := by
          have := natToBits_bitsToNat (l.take 8)
          rw [htk] at this
          exact this
        rw [hnb, hrec, ← List.append_assoc, List.take_append_drop]
      · have htk : l.take 8 = l := List.take_of_length_le (by omega)
        have hdr : l.drop 8 = [] := List.drop_eq_nil_of_le (by omega)
        have hlen : (l ++ List.replicate (8 - l.length) false).length = 8 := by
          simp [List.length_append, List.length_replicate]; omega
        refine ⟨8 - l.length, ?_, ?_⟩
        · have : 1 ≤ l.length := by
            cases l with
            | nil => exact absurd rfl hnil
            | cons a t => simp
          omega
        · rw [htk, hdr]
          have hnb : natToBits 8 (bitsToNat (l ++ List.replicate (8 - l.length) false))
              = l ++ List.replicate (8 - l.length) false := by
            have := natToBits_bitsToNat (l ++ List.replicate (8 - l.length) false)
            rw [hlen] at this
            exact this
          rw [hnb]
          simp [bitsToBytes, bytesToBits]

theorem bitsToBytes_length (l : List Bool) : (bitsToBytes l).length = (l.length + 7) / 8 := by
  suffices H : ∀ n (l : List Bool), l.length ≤ n →
      (bitsToBytes l).length = (l.length + 7) / 8 from H l.length l le_rfl
  intro n
  induction n with
  | zero =>
    intro l hl
    have : l = [] := List.length_eq_zero.mp (by omega)
    subst this; simp [bitsToBytes]
  | succ m ih =>
    intro l hl
    by_cases hnil : l = []
    · subst hnil; simp [bitsToBytes]
    · rw [bitsToBytes, if_neg hnil]
      have h1 : 1 ≤ l.length := by
        cases l with
        | nil => exact absurd rfl hnil
        | cons a t => simp
      rw [List.length_cons, ih (l.drop 8) (by simp [List.length_drop]; omega)]
      simp only [List.length_drop]
      omega

/-! ## Lemmas: probability clamping and the interval cut -/

theorem adapt_mem (p : Nat) (b : Bool) (h1 : 1 ≤ p) (h2 : p ≤ PDEN - 1) :
    1 ≤ adapt p b ∧ adapt p b ≤ PDEN - 1 := by
  simp only [PDEN] at h2 ⊢
  cases b with
  | false =>
    have hb : p / 32 < p := Nat.div_lt_self (by omega) (by norm_num)
    simp only [adapt, Bool.false_eq_true, if_false, PDEN]
    omega
  | true =>
    have hb : (4096 - p) / 32 < 4096 - p := Nat.div_lt_self (by omega) (by norm_num)
    simp only [adapt, if_true, PDEN]
    omega

theorem tabOk_tab0 : tabOk tab0 := by
  intro c; simp [tab0, PDEN]

theorem tabOk_upd (t : Tab) (c p : Nat) (b : Bool) (ht : tabOk t)
    (h1 : 1 ≤ p) (h2 : p ≤ PDEN - 1) : tabOk (upd t c (adapt p b)) := by
  intro x
  simp only [upd]
  by_cases hx : x = c
  · simp [hx, adapt_mem p b h1 h2]
  · simp [hx, ht x]

theorem cut_pos (low high p : Nat) (hw : QTRW < high - low + 1) (hp : 1 ≤ p) :
    1 ≤ cut low high p := by
  simp only [cut, PDEN]
  rw [Nat.le_div_iff_mul_le (by norm_num : 0 < 4096)]
  have h1 : 4096 ≤ high - low + 1 := by simp [QTRW] at hw; omega
  calc 1 * 4096 = 4096 := by norm_num
    _ ≤ high - low + 1 := h1
    _ = (high - low + 1) * 1 := by ring
    _ ≤ (high - low + 1) * p := Nat.mul_le_mul_left _ hp

theorem cut_le (low high p : Nat) (hl : low ≤ high) (hp : p ≤ PDEN - 1) :
    cut low high p ≤ high - low := by
  simp only [cut, PDEN] at *
  have hlt : (high - low + 1) * p / 4096 < high - low + 1 := by
    rw [Nat.div_lt_iff_lt_mul (by norm_num : 0 < 4096)]
    have : 0 < high - low + 1 := by omega
    calc (high - low + 1) * p ≤ (high - low + 1) * 4095 := Nat.mul_le_mul_left _ (by omega)
      _ < (high - low + 1) * 4096 := (Nat.mul_lt_mul_left this).mpr (by norm_num)
  omega

/-! ## Lemmas: encoder renormalization steps -/

theorem encStep_of_done (s : EncSt) (h : renormDone s.low s.high) : encStep s = s := by
  obtain ⟨h1, h2, h3⟩ := h
  simp [encStep, h1, h2, h3]

theorem done_iterate (s : EncSt) (h : renormDone s.low s.high) (n : Nat) :
    encStep^[n] s = s := by
  induction n with
  | zero => rfl
  | succ m ih => rw [Function.iterate_succ_apply, encStep_of_done s h, ih]

theorem not_done_width (l h : Nat) (hd : ¬ renormDone l h) (hlh : l ≤ h) (hw : h < WTOP) :
    h - l + 1 ≤ HALFW := by
  unfold renormDone at hd
  simp only [HALFW, QTRW, WTOP] at *
  by_cases c1 : h < 32768
  · omega
  by_cases c2 : 32768 ≤ l
  · omega
  have c3 : 16384 ≤ l ∧ h < 49152 := by
    by_contra hc
    exact hd ⟨c1, c2, hc⟩
  omega

theorem done_width (l h : Nat) (hd : renormDone l h) (hlh : l ≤ h) :
    QTRW < h - l + 1 := by
  obtain ⟨h1, h2, h3⟩ := hd
  rw [not_lt] at h1
  rw [not_le] at h2
  simp only [HALFW, QTRW] at h1 h2 h3 ⊢
  by_cases hc : 16384 ≤ l
  · have h4 : ¬ h < 49152 := fun hh => h3 ⟨hc, hh⟩
    omega
  · omega

theorem MM_e1 (s : EncSt) (h : s.high < HALFW) :
    encStep s = ⟨2 * s.low, 2 * s.high + 1, 0,
      s.out ++ false :: List.replicate s.pending true⟩ ∧
    MM (encStep s) = 2 * MM s ∧ dS (encStep s) = dS s + 1 := by
  have he : encStep s = ⟨2 * s.low, 2 * s.high + 1, 0,
      s.out ++ false :: List.replicate s.pending true⟩ := by
    simp [encStep, h]
  refine ⟨he, ?_, ?_⟩
  · rw [he]
    simp only [MM, bitsToNat_append, bitsToNat_cons, bitsToNat_replicate_true,
      List.length_cons, List.length_replicate, Bool.toNat_false, Nat.add_zero,
      Nat.zero_mul, Nat.zero_add, pow_zero, HALFW]
    obtain ⟨r, hr⟩ : ∃ r, (2:Nat) ^ s.pending = r + 1 :=
      ⟨2 ^ s.pending - 1, by have := (Nat.one_le_two_pow : (1:Nat) ≤ 2 ^ s.pending); omega⟩
    have hp1 : (2:Nat) ^ (s.pending + 1) = 2 * (r + 1) := by rw [pow_succ, hr]; ring
    have hp16 : (2:Nat) ^ (16 + s.pending) = 65536 * (r + 1) := by
      rw [pow_add, hr]; norm_num
    rw [hp1, hp16, hr]
    simp only [Nat.add_sub_cancel]
    ring
  · rw [he]
    simp only [dS, List.length_append, List.length_cons, List.length_replicate]
    omega

theorem MM_e2 (s : EncSt) (h1 : ¬ s.high < HALFW) (h2 : HALFW ≤ s.low) :
    encStep s = ⟨2 * s.low - WTOP, 2 * s.high + 1 - WTOP, 0,
      s.out ++ true :: List.replicate s.pending false⟩ ∧
    MM (encStep s) = 2 * MM s + WTOP ∧ dS (encStep s) = dS s + 1 := by
  have he : encStep s = ⟨2 * s.low - WTOP, 2 * s.high + 1 - WTOP, 0,
      s.out ++ true :: List.replicate s.pending false⟩ := by
    simp [encStep, h1, h2]
  refine ⟨he, ?_, ?_⟩
  · rw [he]
    simp only [MM, bitsToNat_append, bitsToNat_cons, bitsToNat_replicate_false,
      List.length_cons, List.length_replicate, Bool.toNat_true, Nat.add_zero,
      pow_zero, HALFW, WTOP]
    obtain ⟨r, hr⟩ : ∃ r, (2:Nat) ^ s.pending = r + 1 :=
      ⟨2 ^ s.pending - 1, by have := (Nat.one_le_two_pow : (1:Nat) ≤ 2 ^ s.pending); omega⟩
    have hp1 : (2:Nat) ^ (s.pending + 1) = 2 * (r + 1) := by rw [pow_succ, hr]; ring
    have hp16 : (2:Nat) ^ (16 + s.pending) = 65536 * (r + 1) := by
      rw [pow_add, hr]; norm_num
    rw [hp1, hp16, hr]
    simp only [Nat.add_sub_cancel]
    ring
  · rw [he]
    simp only [dS, List.length_append, List.length_cons, List.length_replicate]
    omega

theorem MM_e3 (s : EncSt) (h1 : ¬ s.high < HALFW) (h2 : ¬ HALFW ≤ s.low)
    (h3 : QTRW ≤ s.low ∧ s.high < 3 * QTRW) :
    encStep s = ⟨2 * s.low - HALFW, 2 * s.high + 1 - HALFW, s.pending + 1, s.out⟩ ∧
    MM (encStep s) = 2 * MM s + HALFW ∧ dS (encStep s) = dS s + 1 := by
  have he : encStep s = ⟨2 * s.low - HALFW, 2 * s.high + 1 - HALFW, s.pending + 1, s.out⟩ := by
    simp [encStep, h1, h2, h3]
  refine ⟨he, ?_, ?_⟩
  · rw [he]
    simp only [MM, HALFW]
    obtain ⟨r, hr⟩ : ∃ r, (2:Nat) ^ s.pending = r + 1 :=
      ⟨2 ^ s.pending - 1, by have := (Nat.one_le_two_pow : (1:Nat) ≤ 2 ^ s.pending); omega⟩
    have hp1 : (2:Nat) ^ (s.pending + 1) = 2 * (r + 1) := by rw [pow_succ, hr]; ring
    have hp16 : (2:Nat) ^ (16 + s.pending) = 65536 * (r + 1) := by
      rw [pow_add, hr]; norm_num
    have hp17 : (2:Nat) ^ (16 + (s.pending + 1)) = 131072 * (r + 1) := by
      rw [pow_add, hp1]; norm_num; omega
    rw [hp1, hp16, hp17, hr]
    simp only [Nat.add_sub_cancel]
    have : 2 * (r + 1) - 1 = 2 * r + 1 := by omega
    rw [this]
    ring
  · rw [he]
    simp only [dS]
    omega

/-- Dichotomy for one renormalization step: either the state is a fixed point,
or the step doubles the interval width, counts one scaling, and maps the
absolute interval endpoints exactly. -/
theorem encStep_main (s : EncSt) (hlh : LH s) :
    (renormDone s.low s.high ∧ encStep s = s) ∨
    (LH (encStep s) ∧
     (encStep s).high - (encStep s).low + 1 = 2 * (s.high - s.low + 1) ∧
     dS (encStep s) = dS s + 1 ∧
     MM (encStep s) + (encStep s).low = 2 * (MM s + s.low) ∧
     MM (encStep s) + (encStep s).high = 2 * (MM s + s.high) + 1) := by
  obtain ⟨hl, hw⟩ := hlh
  simp only [WTOP] at hw
  by_cases c1 : s.high < HALFW
  · right
    obtain ⟨he, hm, hd⟩ := MM_e1 s c1
    have hlow : (encStep s).low = 2 * s.low := by rw [he]
    have hhigh : (encStep s).high = 2 * s.high + 1 := by rw [he]
    simp only [HALFW] at c1
    refine ⟨⟨by rw [hlow, hhigh]; omega, by rw [hhigh]; simp only [WTOP]; omega⟩,
      by rw [hlow, hhigh]; omega, hd, by rw [hm, hlow]; ring, by rw [hm, hhigh]; ring⟩
  by_cases c2 : HALFW ≤ s.low
  · right
    obtain ⟨he, hm, hd⟩ := MM_e2 s c1 c2
    have hlow : (encStep s).low = 2 * s.low - WTOP := by rw [he]
    have hhigh : (encStep s).high = 2 * s.high + 1 - WTOP := by rw [he]
    simp only [HALFW] at c1 c2
    simp only [WTOP] at hlow hhigh hm
    refine ⟨⟨by rw [hlow, hhigh]; omega, by rw [hhigh]; simp only [WTOP]; omega⟩,
      by rw [hlow, hhigh]; omega, hd, by rw [hm, hlow]; omega, by rw [hm, hhigh]; omega⟩
  by_cases c3 : QTRW ≤ s.low ∧ s.high < 3 * QTRW
  · right
    obtain ⟨he, hm, hd⟩ := MM_e3 s c1 c2 c3
    have hlow : (encStep s).low = 2 * s.low - HALFW := by rw [he]
    have hhigh : (encStep s).high = 2 * s.high + 1 - HALFW := by rw [he]
    simp only [HALFW] at c1 c2 hlow hhigh hm
    simp only [QTRW] at c3
    refine ⟨⟨by rw [hlow, hhigh]; omega, by rw [hhigh]; simp only [WTOP]; omega⟩,
      by rw [hlow, hhigh]; omega, hd, by rw [hm, hlow]; omega, by rw [hm, hhigh]; omega⟩
  · exact Or.inl ⟨⟨c1, c2, c3⟩, encStep_of_done s ⟨c1, c2, c3⟩⟩

theorem encStep_lh (s : EncSt) (hlh : LH s) : LH (encStep s) := by
  rcases encStep_main s hlh with ⟨_, hid⟩ | ⟨h, _⟩
  · rwa [hid]
  · exact h

theorem encIter_lh (n : Nat) (s : EncSt) (hlh : LH s) : LH (encStep^[n] s) := by
  induction n generalizing s with
  | zero => exact hlh
  | succ m ih => rw [Function.iterate_succ_apply]; exact ih _ (encStep_lh s hlh)

/-- After sixteen steps from a valid state, renormalization has reached a
fixed point. -/
theorem encRenorm_done (s : EncSt) (hlh : LH s) :
    LH (encRenorm s) ∧ renormDone (encRenorm s).low (encRenorm s).high := by
  have aux : ∀ n (t : EncSt), LH t →
      renormDone (encStep^[n] t).low (encStep^[n] t).high ∨
      (encStep^[n] t).high - (encStep^[n] t).low + 1 = 2 ^ n * (t.high - t.low + 1) := by
    intro n
    induction n with
    | zero => intro t _; exact Or.inr (by simp)
    | succ m ih =>
      intro t ht
      rcases encStep_main t ht with ⟨hdone, _⟩ | ⟨hlh', hwid, _, _, _⟩
      · rw [done_iterate t hdone (m + 1)]
        exact Or.inl hdone
      · rw [Function.iterate_succ_apply]
        rcases ih (encStep t) hlh' with hdone | hwid'
        · exact Or.inl hdone
        · exact Or.inr (by rw [hwid', hwid, pow_succ]; ring)
  have hlh16 := encIter_lh 16 s hlh
  refine ⟨hlh16, ?_⟩
  rcases aux 16 s hlh with hdone | hwid
  · exact hdone
  by_cases hd : renormDone (encStep^[16] s).low (encStep^[16] s).high
  · exact hd
  exfalso
  have h1 := not_done_width _ _ hd hlh16.1 hlh16.2
  have h2 : 1 ≤ s.high - s.low + 1 := by omega
  have h3 : (2:Nat) ^ 16 * 1 ≤ 2 ^ 16 * (s.high - s.low + 1) := Nat.mul_le_mul_left _ h2
  simp only [HALFW] at h1
  norm_num at h3
  simp only [encRenorm] at *
  omega

theorem encodeBit_unfold (s : EncSt) (b : Bool) (p : Nat) :
    encodeBit s b p = encStep^[16] (narrow s b p) := rfl

theorem narrow_fields (s : EncSt) (b : Bool) (p : Nat) :
    dS (narrow s b p) = dS s ∧ MM (narrow s b p) = MM s := by
  cases b <;> simp [narrow, dS, MM]

theorem narrow_eq_false (s : EncSt) (p : Nat) :
    narrow s false p = ⟨s.low + cut s.low s.high p, s.high, s.pending, s.out⟩ := by
  simp [narrow]

theorem narrow_eq_true (s : EncSt) (p : Nat) :
    narrow s true p = ⟨s.low, s.low + cut s.low s.high p - 1, s.pending, s.out⟩ := by
  simp [narrow]

theorem narrow_lh (s : EncSt) (b : Bool) (p : Nat) (hs : EncInv s)
    (h1 : 1 ≤ p) (h2 : p ≤ PDEN - 1) :
    LH (narrow s b p) ∧ s.low ≤ (narrow s b p).low ∧ (narrow s b p).high ≤ s.high := by
  obtain ⟨hl, hw, hq⟩ := hs
  have hc1 := cut_pos s.low s.high p hq h1
  have hc2 := cut_le s.low s.high p hl h2
  simp only [WTOP] at hw
  cases b with
  | false =>
    rw [narrow_eq_false]
    unfold LH
    dsimp only
    simp only [WTOP]
    exact ⟨⟨by omega, by omega⟩, by omega, by omega⟩
  | true =>
    rw [narrow_eq_true]
    unfold LH
    dsimp only
    simp only [WTOP]
    exact ⟨⟨by omega, by omega⟩, by omega, by omega⟩

theorem encodeBit_inv (s : EncSt) (b : Bool) (p : Nat) (hs : EncInv s)
    (h1 : 1 ≤ p) (h2 : p ≤ PDEN - 1) : EncInv (encodeBit s b p) := by
  obtain ⟨hlh', _, _⟩ := narrow_lh s b p hs h1 h2
  obtain ⟨hlh2, hdone⟩ := encRenorm_done (narrow s b p) hlh'
  rw [encodeBit_unfold]
  exact ⟨hlh2.1, hlh2.2, done_width _ _ hdone hlh2.1⟩

/-! ## Lemmas: the code-value window propagates backward along the encoder -/

theorem stepBack (S : List Bool) (s : EncSt) (hlh : LH s)
    (hw : inWindow S (encStep s)) : inWindow S s := by
  rcases encStep_main s hlh with ⟨_, hid⟩ | ⟨_, _, hd, hml, hmh⟩
  · rwa [hid] at hw
  · obtain ⟨hlen, hlo, hhi⟩ := hw
    rw [hd] at hlen hlo hhi
    have ht : S.length - (dS s + 16) = (S.length - (dS s + 1 + 16)) + 1 := by omega
    have hx : bitsToNat S / 2 ^ (S.length - (dS s + 16))
        = bitsToNat S / 2 ^ (S.length - (dS s + 1 + 16)) / 2 := by
      rw [ht, pow_succ, ← Nat.div_div_eq_div_mul]
    refine ⟨by omega, ?_, ?_⟩
    · rw [hx]; omega
    · rw [hx]; omega

theorem iterBack (S : List Bool) (n : Nat) : ∀ (s : EncSt), LH s →
    inWindow S (encStep^[n] s) → inWindow S s := by
  induction n with
  | zero => intro s _ h; exact h
  | succ m ih =>
    intro s hs h
    rw [Function.iterate_succ_apply] at h
    exact stepBack S s hs (ih (encStep s) (encStep_lh s hs) h)

theorem narrowBack (S : List Bool) (s : EncSt) (b : Bool) (p : Nat) (hs : EncInv s)
    (h1 : 1 ≤ p) (h2 : p ≤ PDEN - 1) (hw : inWindow S (narrow s b p)) : inWindow S s := by
  obtain ⟨hds, hmm⟩ := narrow_fields s b p
  obtain ⟨_, hlo', hhi'⟩ := narrow_lh s b p hs h1 h2
  obtain ⟨hlen, hlo, hhi⟩ := hw
  rw [hds] at hlen hlo hhi
  rw [hmm] at hlo hhi
  exact ⟨hlen, by omega, by omega⟩

theorem flush_spec (s : EncSt) (hlow : s.low < WTOP) :
    (flushBits s).length = dS s + 16 ∧ bitsToNat (flushBits s) = MM s + s.low := by
  have hq : 1 ≤ (2:Nat) ^ s.pending := Nat.one_le_two_pow
  have hpow : (2:Nat) ^ (s.pending + 16) = 2 ^ s.pending * 65536 := by
    rw [pow_add]; norm_num
  have hT : HALFW * (2 ^ s.pending - 1) + s.low < 2 ^ (s.pending + 16) := by
    simp only [HALFW, WTOP] at *
    omega
  constructor
  · simp only [flushBits, List.length_append, natToBits_length, dS]
    omega
  · rw [flushBits, bitsToNat_append, natToBits_length, bitsToNat_natToBits _ _ hT,
        Nat.mul_comm, MM]
    have : (2:Nat) ^ (s.pending + 16) = 2 ^ (16 + s.pending) := by rw [Nat.add_comm]
    rw [this]
    omega

set_option maxHeartbeats 2000000 in
theorem futureWindow_aux (S : List Bool) (ps : List (Bool × Nat)) : ∀ (s : EncSt),
    dsOk ps → EncInv s → flushBits (encSteps ps s) = S → inWindow S s := by
  induction ps with
  | nil =>
    intro s _ hs heq
    simp only [encSteps] at heq
    obtain ⟨hlen, hval⟩ := flush_spec s (by obtain ⟨a, b, _⟩ := hs; omega)
    rw [heq] at hlen hval
    obtain ⟨hl, _, _⟩ := hs
    refine ⟨by omega, ?_, ?_⟩
    · rw [show S.length - (dS s + 16) = 0 from by omega, pow_zero, Nat.div_one, hval]
    · rw [show S.length - (dS s + 16) = 0 from by omega, pow_zero, Nat.div_one, hval]
      omega
  | cons q ps ih =>
    obtain ⟨b, p⟩ := q
    intro s hok hs heq
    simp only [encSteps] at heq
    have hq := hok (b, p) (List.mem_cons_self _ _)
    have hok' : dsOk ps := fun x hx => hok x (List.mem_cons_of_mem _ hx)
    have hinv' : EncInv (encodeBit s b p) := encodeBit_inv s b p hs hq.1 hq.2
    have hwin' : inWindow S (encodeBit s b p) := ih (encodeBit s b p) hok' hinv' heq
    rw [encodeBit_unfold] at hwin'
    have h2 : inWindow S (narrow s b p) :=
      iterBack S 16 _ (narrow_lh s b p hs hq.1 hq.2).1 hwin'
    exact narrowBack S s b p hs hq.1 hq.2 h2

theorem futureWindow (S : List Bool) (s : EncSt) (hf : Future S s) (hs : EncInv s) :
    inWindow S s := by
  obtain ⟨ps, hok, heq⟩ := hf
  exact futureWindow_aux S ps s hok hs heq

/-! ## Lemmas: decoder lockstep simulation -/

theorem dS_encStep_mono (s : EncSt) : dS s ≤ dS (encStep s) := by
  by_cases c1 : s.high < HALFW
  · simp [encStep, c1, dS]
  by_cases c2 : HALFW ≤ s.low
  · simp [encStep, c1, c2, dS]
  by_cases c3 : QTRW ≤ s.low ∧ s.high < 3 * QTRW
  · simp [encStep, c1, c2, c3, dS]
  · simp [encStep, c1, c2, c3]

theorem dS_iterate_mono (n : Nat) (s : EncSt) : dS s ≤ dS (encStep^[n] s) := by
  induction n generalizing s with
  | zero => exact le_refl _
  | succ m ih =>
    rw [Function.iterate_succ_apply]
    exact le_trans (dS_encStep_mono s) (ih (encStep s))

theorem decStep_coup (S : List Bool) (s : EncSt) (d : DecSt)
    (hc : Coup S s d) (hlh : LH s) (hlen : dS (encStep s) + 16 ≤ S.length) :
    ∃ d', decStep S d = Except.ok d' ∧ Coup S (encStep s) d' := by
  obtain ⟨hdl, hdh, hdp, hlv, hval⟩ := hc
  by_cases c1 : s.high < HALFW
  · obtain ⟨he, hm, hd⟩ := MM_e1 s c1
    have hpos : d.pos < S.length := by rw [hd] at hlen; omega
    have hr : readBit S d.pos = Except.ok (S.getD d.pos false) := by
      rw [readBit, if_pos hpos]
    refine ⟨⟨2 * d.low, 2 * d.high + 1, 2 * d.val + (S.getD d.pos false).toNat, d.pos + 1⟩,
      ?_, ?_⟩
    · rw [decStep, if_pos (hdh ▸ c1), hr]
    · have htk := bitsToNat_take_succ S d.pos hpos
      rw [he]
      refine ⟨by dsimp only; omega, by dsimp only; omega, ?_, by dsimp only; omega, ?_⟩
      · dsimp only
        rw [show (dS ⟨2 * s.low, 2 * s.high + 1, 0,
            s.out ++ false :: List.replicate s.pending true⟩) = dS (encStep s) from by rw [he]]
        rw [hd]
        omega
      · dsimp only
        rw [show (MM ⟨2 * s.low, 2 * s.high + 1, 0,
            s.out ++ false :: List.replicate s.pending true⟩) = MM (encStep s) from by rw [he]]
        rw [hm, hdp] at *
        omega
  by_cases c2 : HALFW ≤ s.low
  · obtain ⟨he, hm, hd⟩ := MM_e2 s c1 c2
    have hpos : d.pos < S.length := by rw [hd] at hlen; omega
    have hr : readBit S d.pos = Except.ok (S.getD d.pos false) := by
      rw [readBit, if_pos hpos]
    have hv2 : WTOP ≤ 2 * d.val := by
      simp only [HALFW] at c2
      simp only [WTOP]
      omega
    refine ⟨⟨2 * d.low - WTOP, 2 * d.high + 1 - WTOP,
        2 * d.val - WTOP + (S.getD d.pos false).toNat, d.pos + 1⟩, ?_, ?_⟩
    · rw [decStep, if_neg (hdh ▸ c1), if_pos (hdl ▸ c2), hr]
    · have htk := bitsToNat_take_succ S d.pos hpos
      rw [he]
      have hm' : MM ⟨2 * s.low - WTOP, 2 * s.high + 1 - WTOP, 0,
          s.out ++ true :: List.replicate s.pending false⟩ = 2 * MM s + WTOP := by
        rw [← hm, he]
      have hd' : dS ⟨2 * s.low - WTOP, 2 * s.high + 1 - WTOP, 0,
          s.out ++ true :: List.replicate s.pending false⟩ = dS s + 1 := by
        rw [← hd, he]
      refine ⟨by dsimp only; omega, by dsimp only; omega, ?_, ?_, ?_⟩
      · dsimp only
        rw [hd']
        omega
      · dsimp only
        simp only [HALFW] at c2
        simp only [WTOP] at *
        omega
      · dsimp only
        rw [hm', hdp] at *
        simp only [HALFW] at c2
        simp only [WTOP] at *
        omega
  by_cases c3 : QTRW ≤ s.low ∧ s.high < 3 * QTRW
  · obtain ⟨he, hm, hd⟩ := MM_e3 s c1 c2 c3
    have hpos : d.pos < S.length := by rw [hd] at hlen; omega
    have hr : readBit S d.pos = Except.ok (S.getD d.pos false) := by
      rw [readBit, if_pos hpos]
    have hv2 : HALFW ≤ 2 * d.val := by
      simp only [QTRW] at c3
      simp only [HALFW]
      omega
    refine ⟨⟨2 * d.low - HALFW, 2 * d.high + 1 - HALFW,
        2 * d.val - HALFW + (S.getD d.pos false).toNat, d.pos + 1⟩, ?_, ?_⟩
    · rw [decStep, if_neg (hdh ▸ c1), if_neg (hdl ▸ c2)]
      have c3' : QTRW ≤ d.low ∧ d.high < 3 * QTRW := by rw [hdl, hdh]; exact c3
      rw [if_pos c3', hr]
    · have htk := bitsToNat_take_succ S d.pos hpos
      rw [he]
      have hm' : MM ⟨2 * s.low - HALFW, 2 * s.high + 1 - HALFW, s.pending + 1, s.out⟩
          = 2 * MM s + HALFW := by rw [← hm, he]
      have hd' : dS ⟨2 * s.low - HALFW, 2 * s.high + 1 - HALFW, s.pending + 1, s.out⟩
          = dS s + 1 := by rw [← hd, he]
      refine ⟨by dsimp only; omega, by dsimp only; omega, ?_, ?_, ?_⟩
      · dsimp only
        rw [hd']
        omega
      · dsimp only
        obtain ⟨c3a, _⟩ := c3
        simp only [QTRW] at c3a
        simp only [HALFW] at *
        omega
      · dsimp only
        rw [hm', hdp] at *
        obtain ⟨c3a, _⟩ := c3
        simp only [QTRW] at c3a
        simp only [HALFW] at *
        omega
  · have hdone : renormDone s.low s.high := ⟨c1, c2, c3⟩
    refine ⟨d, ?_, ?_⟩
    · rw [decStep, if_neg (hdh ▸ c1), if_neg (hdl ▸ c2)]
      have c3' : ¬ (QTRW ≤ d.low ∧ d.high < 3 * QTRW) := by rw [hdl, hdh]; exact c3
      rw [if_neg c3']
    · rw [encStep_of_done s hdone]
      exact ⟨hdl, hdh, hdp, hlv, hval⟩

theorem decIter_coup (S : List Bool) (n : Nat) : ∀ (s : EncSt) (d : DecSt),
    Coup S s d → LH s → dS (encStep^[n] s) + 16 ≤ S.length →
    ∃ d', decIter S n d = Except.ok d' ∧ Coup S (encStep^[n] s) d' := by
  induction n with
  | zero => intro s d hc _ _; exact ⟨d, rfl, hc⟩
  | succ m ih =>
    intro s d hc hlh hlen
    rw [Function.iterate_succ_apply] at hlen ⊢
    have hlen1 : dS (encStep s) + 16 ≤ S.length :=
      le_trans (by have := dS_iterate_mono m (encStep s); omega) hlen
    obtain ⟨d1, hstep, hc1⟩ := decStep_coup S s d hc hlh hlen1
    obtain ⟨d', hrest, hc'⟩ := ih (encStep s) d1 hc1 (encStep_lh s hlh) hlen
    exact ⟨d', by rw [decIter, hstep]; exact hrest, hc'⟩

/-- The central decision lemma: under the coupling, the decoder recovers
exactly the encoded bit and the states stay coupled. -/
theorem decodeBit_coup (S : List Bool) (s : EncSt) (d : DecSt) (b : Bool) (p : Nat)
    (hc : Coup S s d) (hs : EncInv s) (h1 : 1 ≤ p) (h2 : p ≤ PDEN - 1)
    (hf : Future S (encodeBit s b p)) :
    ∃ d', decodeBit S d p = Except.ok (b, d') ∧ Coup S (encodeBit s b p) d' := by
  have hinv' : EncInv (encodeBit s b p) := encodeBit_inv s b p hs h1 h2
  have hwin' : inWindow S (encodeBit s b p) := futureWindow S _ hf hinv'
  have hwin1 : inWindow S (narrow s b p) := by
    rw [encodeBit_unfold] at hwin'
    exact iterBack S 16 _ (narrow_lh s b p hs h1 h2).1 hwin'
  obtain ⟨hdl, hdh, hdp, hlv, hval⟩ := hc
  obtain ⟨dlow, dhigh, dval, dpos⟩ := d
  dsimp only at hdl hdh hdp hlv hval
  subst hdl
  subst hdh
  subst hdp
  obtain ⟨hnds, hnmm⟩ := narrow_fields s b p
  obtain ⟨hlen1, hwlo, hwhi⟩ := hwin1
  rw [hnds] at hlen1 hwlo hwhi
  rw [hnmm] at hwlo hwhi
  have hx : bitsToNat (S.take (dS s + 16)) = bitsToNat S / 2 ^ (S.length - (dS s + 16)) :=
    bitsToNat_take_div S _ (by omega)
  rw [hx] at hval
  have hkpos : 1 ≤ cut s.low s.high p := cut_pos s.low s.high p hs.2.2 h1
  have hlen16 : dS (encStep^[16] (narrow s b p)) + 16 ≤ S.length := by
    rw [← encodeBit_unfold]
    exact hwin'.1
  cases b with
  | true =>
    have hhigh1 : (narrow s true p).high = s.low + cut s.low s.high p - 1 := by
      rw [narrow_eq_true]
    have hlow1 : (narrow s true p).low = s.low := by rw [narrow_eq_true]
    rw [hhigh1] at hwhi
    rw [hlow1] at hwlo
    have hcond : dval ≤ s.low + cut s.low s.high p - 1 := by omega
    have hc1 : Coup S (narrow s true p)
        ⟨s.low, s.low + cut s.low s.high p - 1, dval, dS s + 16⟩ := by
      refine ⟨?_, ?_, ?_, ?_, ?_⟩
      · dsimp only
        rw [hlow1]
      · dsimp only
        rw [hhigh1]
      · dsimp only
        rw [hnds]
      · dsimp only
        rw [hlow1]
        exact hlv
      · dsimp only
        rw [hnmm, hx]
        exact hval
    obtain ⟨d', hiter, hc'⟩ :=
      decIter_coup S 16 (narrow s true p) _ hc1 (narrow_lh s true p hs h1 h2).1 hlen16
    refine ⟨d', ?_, by rw [encodeBit_unfold]; exact hc'⟩
    rw [decodeBit]
    dsimp only
    rw [if_pos hcond, hiter]
  | false =>
    have hlow1 : (narrow s false p).low = s.low + cut s.low s.high p := by
      rw [narrow_eq_false]
    have hhigh1 : (narrow s false p).high = s.high := by rw [narrow_eq_false]
    rw [hlow1] at hwlo
    rw [hhigh1] at hwhi
    have hcond : ¬ (dval ≤ s.low + cut s.low s.high p - 1) := by omega
    have hc1 : Coup S (narrow s false p)
        ⟨s.low + cut s.low s.high p, s.high, dval, dS s + 16⟩ := by
      refine ⟨?_, ?_, ?_, ?_, ?_⟩
      · dsimp only
        rw [hlow1]
      · dsimp only
        rw [hhigh1]
      · dsimp only
        rw [hnds]
      · dsimp only
        rw [hlow1]
        omega
      · dsimp only
        rw [hnmm, hx]
        exact hval
    obtain ⟨d', hiter, hc'⟩ :=
      decIter_coup S 16 (narrow s false p) _ hc1 (narrow_lh s false p hs h1 h2).1 hlen16
    refine ⟨d', ?_, by rw [encodeBit_unfold]; exact hc'⟩
    rw [decodeBit]
    dsimp only
    rw [if_neg hcond, hiter]

/-! ## Lemmas: decision lists of the LosslessCoder -/

theorem encSteps_nil (s : EncSt) : encSteps [] s = s := rfl

theorem encSteps_cons (b : Bool) (p : Nat) (r : List (Bool × Nat)) (s : EncSt) :
    encSteps ((b, p) :: r) s = encSteps r (encodeBit s b p) := rfl

theorem encSteps_append (a b : List (Bool × Nat)) (s : EncSt) :
    encSteps (a ++ b) s = encSteps b (encSteps a s) := by
  induction a generalizing s with
  | nil => rfl
  | cons q r ih =>
    obtain ⟨qb, qp⟩ := q
    rw [List.cons_append, encSteps_cons, encSteps_cons, ih]

theorem encSteps_inv (ds : List (Bool × Nat)) : ∀ (s : EncSt),
    EncInv s → dsOk ds → EncInv (encSteps ds s) := by
  induction ds with
  | nil => intro s hs _; exact hs
  | cons q r ih =>
    obtain ⟨qb, qp⟩ := q
    intro s hs hok
    have hq := hok (qb, qp) (List.mem_cons_self _ _)
    rw [encSteps_cons]
    exact ih _ (encodeBit_inv s qb qp hs hq.1 hq.2) fun x hx => hok x (List.mem_cons_of_mem _ hx)

theorem dsOk_nil : dsOk [] := fun x hx => absurd hx (List.not_mem_nil x)

theorem dsOk_append (a b : List (Bool × Nat)) (ha : dsOk a) (hb : dsOk b) : dsOk (a ++ b) := by
  intro x hx
  rcases List.mem_append.mp hx with h | h
  · exact ha x h
  · exact hb x h

theorem buildMag_ok (m : Nat) : ∀ (tab : Tab) (base j : Nat), tabOk tab →
    dsOk (buildMag base tab j m).1 ∧ tabOk (buildMag base tab j m).2 := by
  induction m with
  | zero =>
    intro tab base j ht
    constructor
    · intro x hx
      simp only [buildMag, List.mem_singleton] at hx
      rw [hx]
      exact ht (ctxMag base j)
    · have hc := ht (ctxMag base j)
      exact tabOk_upd tab _ _ false ht hc.1 hc.2
  | succ k ih =>
    intro tab base j ht
    have hc := ht (ctxMag base j)
    have ht' : tabOk (upd tab (ctxMag base j) (adapt (tab (ctxMag base j)) true)) :=
      tabOk_upd tab _ _ true ht hc.1 hc.2
    obtain ⟨ih1, ih2⟩ := ih (upd tab (ctxMag base j) (adapt (tab (ctxMag base j)) true)) base (j + 1) ht'
    constructor
    · intro x hx
      simp only [buildMag, List.mem_cons] at hx
      rcases hx with h | h
      · rw [h]; exact hc
      · exact ih1 x h
    · exact ih2

theorem buildSym_ok (tab : Tab) (base : Nat) (x : Int) (ht : tabOk tab) :
    dsOk (buildSym tab base x).1 ∧ tabOk (buildSym tab base x).2 := by
  obtain ⟨h1, h2⟩ := buildMag_ok x.natAbs tab base 0 ht
  by_cases hx : x = 0
  · simp only [buildSym, if_pos hx]
    exact ⟨h1, h2⟩
  · simp only [buildSym, if_neg hx]
    have hc := h2 (ctxSign base)
    constructor
    · refine dsOk_append _ _ h1 ?_
      intro q hq
      simp only [List.mem_singleton] at hq
      rw [hq]
      exact hc
    · exact tabOk_upd _ _ _ _ h2 hc.1 hc.2

theorem buildAll_ok (rest : List Int) : ∀ (cols : Nat) (tab : Tab) (acc : List Int),
    tabOk tab → dsOk (buildAll cols tab acc rest).1 ∧ tabOk (buildAll cols tab acc rest).2 := by
  induction rest with
  | nil =>
    intro cols tab acc ht
    exact ⟨dsOk_nil, ht⟩
  | cons x r ih =>
    intro cols tab acc ht
    obtain ⟨h1, h2⟩ := buildSym_ok tab (ctxBase cols acc) x ht
    obtain ⟨h3, h4⟩ := ih cols (buildSym tab (ctxBase cols acc) x).2 (acc ++ [x]) h2
    exact ⟨dsOk_append _ _ h1 h3, h4⟩

theorem buildAll_cons (cols : Nat) (tab : Tab) (acc : List Int) (x : Int) (r : List Int) :
    buildAll cols tab acc (x :: r)
      = ((buildSym tab (ctxBase cols acc) x).1
          ++ (buildAll cols (buildSym tab (ctxBase cols acc) x).2 (acc ++ [x]) r).1,
         (buildAll cols (buildSym tab (ctxBase cols acc) x).2 (acc ++ [x]) r).2) := by
  rw [buildAll]

/-! ## Lemmas: symbol-level simulation -/

theorem buildMag_zero (base : Nat) (tab : Tab) (j : Nat) :
    buildMag base tab j 0
      = ([(false, tab (ctxMag base j))],
         upd tab (ctxMag base j) (adapt (tab (ctxMag base j)) false)) := by
  rw [buildMag]

theorem buildMag_succ (base : Nat) (tab : Tab) (j k : Nat) :
    buildMag base tab j (k + 1)
      = ((true, tab (ctxMag base j))
          :: (buildMag base (upd tab (ctxMag base j) (adapt (tab (ctxMag base j)) true)) (j + 1) k).1,
         (buildMag base (upd tab (ctxMag base j) (adapt (tab (ctxMag base j)) true)) (j + 1) k).2) := by
  rw [buildMag]

theorem decUn_sim (S : List Bool) (base : Nat) (m : Nat) : ∀ (j allow : Nat) (tab : Tab)
    (s : EncSt) (d : DecSt) (rest : List (Bool × Nat)),
    tabOk tab → EncInv s → Coup S s d → m ≤ allow → dsOk rest →
    flushBits (encSteps ((buildMag base tab j m).1 ++ rest) s) = S →
    ∃ d', decUn S base j allow d tab
        = Except.ok (m, d', (buildMag base tab j m).2) ∧
      Coup S (encSteps (buildMag base tab j m).1 s) d' ∧
      EncInv (encSteps (buildMag base tab j m).1 s) ∧
      tabOk (buildMag base tab j m).2 := by
  induction m with
  | zero =>
    intro j allow tab s d rest ht hs hc _ hrest heq
    have hpb := ht (ctxMag base j)
    rw [buildMag_zero] at heq ⊢
    have heq' : flushBits (encSteps rest (encodeBit s false (tab (ctxMag base j)))) = S := by
      rw [← encSteps_cons]
      simpa using heq
    obtain ⟨d1, hdec, hc1⟩ := decodeBit_coup S s d false (tab (ctxMag base j))
      hc hs hpb.1 hpb.2 ⟨rest, hrest, heq'⟩
    refine ⟨d1, ?_, ?_, ?_, ?_⟩
    · cases allow with
      | zero =>
        rw [decUn, hdec]
        simp
      | succ a =>
        rw [decUn, hdec]
        simp
    · rw [encSteps_cons, encSteps_nil]
      exact hc1
    · rw [encSteps_cons, encSteps_nil]
      exact encodeBit_inv s false (tab (ctxMag base j)) hs hpb.1 hpb.2
    · exact tabOk_upd tab _ _ false ht hpb.1 hpb.2
  | succ k ih =>
    intro j allow tab s d rest ht hs hc hma hrest heq
    have hpb := ht (ctxMag base j)
    rw [buildMag_succ] at heq ⊢
    have ht' : tabOk (upd tab (ctxMag base j) (adapt (tab (ctxMag base j)) true)) :=
      tabOk_upd tab _ _ true ht hpb.1 hpb.2
    obtain ⟨hd1ok, _⟩ :=
      buildMag_ok k (upd tab (ctxMag base j) (adapt (tab (ctxMag base j)) true)) base (j + 1) ht'
    have heq' : flushBits (encSteps
        ((buildMag base (upd tab (ctxMag base j) (adapt (tab (ctxMag base j)) true)) (j + 1) k).1
          ++ rest)
        (encodeBit s true (tab (ctxMag base j)))) = S := by
      rw [← encSteps_cons]
      simpa using heq
    obtain ⟨d1, hdec, hc1⟩ := decodeBit_coup S s d true (tab (ctxMag base j))
      hc hs hpb.1 hpb.2 ⟨_, dsOk_append _ _ hd1ok hrest, heq'⟩
    obtain ⟨a, hallow⟩ : ∃ a, allow = a + 1 := ⟨allow - 1, by omega⟩
    subst hallow
    obtain ⟨d2, hrec, hc2, hinv2, htab2⟩ := ih (j + 1) a
      (upd tab (ctxMag base j) (adapt (tab (ctxMag base j)) true))
      (encodeBit s true (tab (ctxMag base j))) d1 rest ht'
      (encodeBit_inv s true (tab (ctxMag base j)) hs hpb.1 hpb.2) hc1 (by omega) hrest heq'
    refine ⟨d2, ?_, ?_, ?_, ?_⟩
    · rw [decUn, hdec]
      dsimp only
      rw [hrec]
      simp
    · rw [encSteps_cons]
      exact hc2
    · rw [encSteps_cons]
      exact hinv2
    · exact htab2

theorem decSym_sim (S : List Bool) (base bound : Nat) (x : Int) (tab : Tab) (s : EncSt)
    (d : DecSt) (rest : List (Bool × Nat)) (ht : tabOk tab) (hs : EncInv s) (hc : Coup S s d)
    (hx : x.natAbs ≤ bound) (hrest : dsOk rest)
    (heq : flushBits (encSteps ((buildSym tab base x).1 ++ rest) s) = S) :
    ∃ d', decSym S base bound d tab = Except.ok (x, d', (buildSym tab base x).2) ∧
      Coup S (encSteps (buildSym tab base x).1 s) d' ∧
      EncInv (encSteps (buildSym tab base x).1 s) ∧ tabOk (buildSym tab base x).2 := by
  by_cases hx0 : x = 0
  · subst hx0
    have hbs : buildSym tab base 0 = buildMag base tab 0 0 := by
      simp [buildSym]
    rw [hbs] at heq ⊢
    obtain ⟨d', hUn, hc', hinv', htab'⟩ := decUn_sim S base 0 0 bound tab s d rest ht hs hc
      (by omega) hrest (by simpa using heq)
    refine ⟨d', ?_, by simpa using hc', by simpa using hinv', htab'⟩
    rw [decSym, hUn]
    simp
  · have hm0 : x.natAbs ≠ 0 := by omega
    have hbs : buildSym tab base x
        = ((buildMag base tab 0 x.natAbs).1
            ++ [(decide (x < 0), (buildMag base tab 0 x.natAbs).2 (ctxSign base))],
           upd (buildMag base tab 0 x.natAbs).2 (ctxSign base)
             (adapt ((buildMag base tab 0 x.natAbs).2 (ctxSign base)) (decide (x < 0)))) := by
      simp [buildSym, hx0]
    obtain ⟨_, htab1⟩ := buildMag_ok x.natAbs tab base 0 ht
    have hp1 := htab1 (ctxSign base)
    rw [hbs] at heq ⊢
    have heq1 : flushBits (encSteps
        ((buildMag base tab 0 x.natAbs).1
          ++ ((decide (x < 0), (buildMag base tab 0 x.natAbs).2 (ctxSign base)) :: rest)) s)
        = S := by
      rw [← heq, List.append_assoc]
      rfl
    have hrest1 : dsOk ((decide (x < 0), (buildMag base tab 0 x.natAbs).2 (ctxSign base)) :: rest) := by
      intro q hq
      rcases List.mem_cons.mp hq with h | h
      · rw [h]; exact hp1
      · exact hrest q h
    obtain ⟨d1, hUn, hc1, hinv1, htab1'⟩ := decUn_sim S base x.natAbs 0 bound tab s d _ ht hs hc
      hx hrest1 heq1
    have heq2 : flushBits (encSteps rest
        (encodeBit (encSteps (buildMag base tab 0 x.natAbs).1 s) (decide (x < 0))
          ((buildMag base tab 0 x.natAbs).2 (ctxSign base)))) = S := by
      rw [← heq1, encSteps_append, encSteps_cons]
    obtain ⟨d2, hdec2, hc2⟩ := decodeBit_coup S _ d1 (decide (x < 0)) _ hc1 hinv1 hp1.1 hp1.2
      ⟨rest, hrest, heq2⟩
    refine ⟨d2, ?_, ?_, ?_, ?_⟩
    · rw [decSym, hUn]
      dsimp only
      rw [if_neg hm0, hdec2]
      dsimp only
      congr 1
      have hval : (if decide (x < 0) = true then -(x.natAbs : Int) else (x.natAbs : Int)) = x := by
        by_cases hneg : x < 0
        · rw [if_pos (by simpa using hneg)]
          omega
        · rw [if_neg (by simpa using hneg)]
          omega
      rw [hval]
    · rw [encSteps_append, encSteps_cons, encSteps_nil]
      exact hc2
    · rw [encSteps_append, encSteps_cons, encSteps_nil]
      exact encodeBit_inv _ _ _ hinv1 hp1.1 hp1.2
    · exact tabOk_upd _ _ _ _ htab1' hp1.1 hp1.2

theorem decSyms_sim (S : List Bool) (cols bound : Nat) (rest : List Int) :
    ∀ (acc : List Int) (tab : Tab) (s : EncSt) (d : DecSt) (restD : List (Bool × Nat)),
    tabOk tab → EncInv s → Coup S s d →
    (∀ x ∈ rest, x.natAbs ≤ bound) → dsOk restD →
    flushBits (encSteps ((buildAll cols tab acc rest).1 ++ restD) s) = S →
    ∃ d', decSyms S cols bound rest.length d tab acc
        = Except.ok (acc ++ rest, d', (buildAll cols tab acc rest).2) ∧
      Coup S (encSteps (buildAll cols tab acc rest).1 s) d' ∧
      EncInv (encSteps (buildAll cols tab acc rest).1 s) ∧
      tabOk (buildAll cols tab acc rest).2 := by
  induction rest with
  | nil =>
    intro acc tab s d restD ht hs hc _ _ _
    refine ⟨d, ?_, ?_, ?_, ?_⟩
    · simp [decSyms, buildAll]
    · simpa [buildAll, encSteps_nil] using hc
    · simpa [buildAll, encSteps_nil] using hs
    · simpa [buildAll] using ht
  | cons x r ih =>
    intro acc tab s d restD ht hs hc hbnd hrestD heq
    rw [buildAll_cons] at heq ⊢
    dsimp only at heq ⊢
    have heq1 : flushBits (encSteps ((buildSym tab (ctxBase cols acc) x).1
        ++ ((buildAll cols (buildSym tab (ctxBase cols acc) x).2 (acc ++ [x]) r).1 ++ restD)) s)
        = S := by
      rw [← heq, List.append_assoc]
    obtain ⟨hall1, _⟩ := buildAll_ok r cols (buildSym tab (ctxBase cols acc) x).2 (acc ++ [x])
      (buildSym_ok tab (ctxBase cols acc) x ht).2
    obtain ⟨d1, hSym, hc1, hinv1, htab1⟩ := decSym_sim S (ctxBase cols acc) bound x tab s d _
      ht hs hc (hbnd x (List.mem_cons_self _ _)) (dsOk_append _ _ hall1 hrestD) heq1
    have heq2 : flushBits (encSteps
        ((buildAll cols (buildSym tab (ctxBase cols acc) x).2 (acc ++ [x]) r).1 ++ restD)
        (encSteps (buildSym tab (ctxBase cols acc) x).1 s)) = S := by
      simp only [encSteps_append] at heq1 ⊢
      exact heq1
    obtain ⟨d2, hRec, hc2, hinv2, htab2⟩ := ih (acc ++ [x])
      (buildSym tab (ctxBase cols acc) x).2 (encSteps (buildSym tab (ctxBase cols acc) x).1 s)
      d1 restD htab1 hinv1 hc1 (fun y hy => hbnd y (List.mem_cons_of_mem _ hy)) hrestD heq2
    refine ⟨d2, ?_, ?_, ?_, ?_⟩
    · rw [List.length_cons, decSyms, hSym]
      dsimp only
      rw [hRec]
      have hl : acc ++ x :: r = (acc ++ [x]) ++ r := by simp
      rw [hl]
    · rw [encSteps_append]
      exact hc2
    · rw [encSteps_append]
      exact hinv2
    · exact htab2

/-! ## Lemmas: full payload round trip -/

theorem readAcc_spec (S : List Bool) (n : Nat) : ∀ (pos acc : Nat), pos + n ≤ S.length →
    readAcc S n pos acc
      = Except.ok (acc * 2 ^ n + bitsToNat ((S.drop pos).take n), pos + n) := by
  induction n with
  | zero =>
    intro pos acc _
    simp [readAcc, bitsToNat]
  | succ k ih =>
    intro pos acc hlen
    have hpos : pos < S.length := by omega
    have hr : readBit S pos = Except.ok (S.getD pos false) := by
      rw [readBit, if_pos hpos]
    rw [readAcc, hr]
    dsimp only
    rw [ih (pos + 1) (2 * acc + (S.getD pos false).toNat) (by omega)]
    have hdrop : S.drop pos = S.getD pos false :: S.drop (pos + 1) := by
      rw [List.getD_eq_getElem?_getD, List.getElem?_eq_getElem hpos]
      exact List.drop_eq_getElem_cons hpos
    have htake : (S.drop pos).take (k + 1)
        = S.getD pos false :: (S.drop (pos + 1)).take k := by
      rw [hdrop, List.take_succ_cons]
    have hlen2 : ((S.drop (pos + 1)).take k).length = k := by
      rw [List.length_take, List.length_drop]
      omega
    rw [htake, bitsToNat_cons, hlen2]
    have h1' : (2 * acc + (S.getD pos false).toNat) * 2 ^ k
          + bitsToNat (List.take k (List.drop (pos + 1) S))
        = acc * 2 ^ (k + 1)
          + ((S.getD pos false).toNat * 2 ^ k + bitsToNat (List.take k (List.drop (pos + 1) S))) := by
      rw [pow_succ]
      ring
    rw [h1', show pos + 1 + k = pos + (k + 1) from by omega]

theorem MM_encInit : MM encInit = 0 := by
  simp [MM, encInit, bitsToNat]

theorem dS_encInit : dS encInit = 0 := by
  simp [dS, encInit]

theorem EncInv_encInit : EncInv encInit := by
  refine ⟨?_, ?_, ?_⟩ <;> simp [encInit, WTOP, QTRW]

theorem payload_sim (cols bound : Nat) (m : List Int) (hbnd : ∀ x ∈ m, x.natAbs ≤ bound) :
    ∃ dF tF, 16 ≤ (payloadBits cols m).length ∧
      readAcc (payloadBits cols m) 16 0 0
        = Except.ok (bitsToNat ((payloadBits cols m).take 16), 16) ∧
      decSyms (payloadBits cols m) cols bound m.length
          ⟨0, 65535, bitsToNat ((payloadBits cols m).take 16), 16⟩ tab0 []
        = Except.ok (m, dF, tF) ∧
      dF.pos = (payloadBits cols m).length := by
  obtain ⟨hds, htF⟩ := buildAll_ok m cols tab0 [] tabOk_tab0
  have hsF : EncInv (encSteps (buildAll cols tab0 [] m).1 encInit) :=
    encSteps_inv _ encInit EncInv_encInit hds
  obtain ⟨hflen, _⟩ := flush_spec (encSteps (buildAll cols tab0 [] m).1 encInit)
    (by obtain ⟨a, b, _⟩ := hsF; simp only [WTOP] at *; omega)
  have hSdef : payloadBits cols m
      = flushBits (encSteps (buildAll cols tab0 [] m).1 encInit) := rfl
  have hlen16 : 16 ≤ (payloadBits cols m).length := by
    rw [hSdef, hflen]
    omega
  have hread : readAcc (payloadBits cols m) 16 0 0
      = Except.ok (bitsToNat ((payloadBits cols m).take 16), 16) := by
    rw [readAcc_spec (payloadBits cols m) 16 0 0 (by omega)]
    simp
  have hcoup : Coup (payloadBits cols m) encInit
      ⟨0, 65535, bitsToNat ((payloadBits cols m).take 16), 16⟩ := by
    refine ⟨rfl, rfl, ?_, ?_, ?_⟩
    · dsimp only
      rw [dS_encInit]
    · dsimp only
      exact Nat.zero_le _
    · dsimp only
      rw [MM_encInit]
      omega
  have heq : flushBits (encSteps ((buildAll cols tab0 [] m).1 ++ []) encInit)
      = payloadBits cols m := by
    rw [List.append_nil, hSdef]
  obtain ⟨dF, hdecSyms, hcF, _, _⟩ := decSyms_sim (payloadBits cols m) cols bound m []
    tab0 encInit _ [] tabOk_tab0 EncInv_encInit hcoup hbnd dsOk_nil heq
  refine ⟨dF, (buildAll cols tab0 [] m).2, hlen16, hread, by simpa using hdecSyms, ?_⟩
  obtain ⟨_, _, hpos, _, _⟩ := hcF
  rw [hpos, hSdef, hflen]

/-! ## Lemmas: the decoder depends only on the bits it consumes -/

theorem take_agree_mono (S₁ S₂ : List Bool) (a b : Nat) (hab : a ≤ b)
    (h : S₂.take b = S₁.take b) : S₂.take a = S₁.take a := by
  have h2 : S₂.take a = (S₂.take b).take a := by
    rw [List.take_take, Nat.min_eq_left hab]
  rw [h2, h, List.take_take, Nat.min_eq_left hab]

theorem take_take_self (S : List Bool) (a b : Nat) (hab : a ≤ b) :
    (S.take b).take a = S.take a := by
  rw [List.take_take, Nat.min_eq_left hab]

theorem readBit_ok (S : List Bool) (pos : Nat) (b : Bool) :
    readBit S pos = Except.ok b ↔ pos < S.length ∧ S.getD pos false = b := by
  rw [readBit]
  by_cases h : pos < S.length <;> simp [h]

theorem readBit_err_iff (S : List Bool) (pos : Nat) (e : Err) :
    readBit S pos = Except.error e ↔ S.length ≤ pos ∧ e = Err.ExhaustedInput := by
  rw [readBit]
  by_cases h : pos < S.length
  · rw [if_pos h]
    constructor
    · intro hc
      exact absurd hc (by simp)
    · intro hc
      omega
  · rw [if_neg h]
    constructor
    · intro hc
      injection hc with hc'
      exact ⟨by omega, hc'.symm⟩
    · intro hc
      rw [hc.2]

theorem readBit_agree (S₁ S₂ : List Bool) (pos : Nat) (b : Bool)
    (h : readBit S₁ pos = Except.ok b) (hag : S₂.take (pos + 1) = S₁.take (pos + 1)) :
    readBit S₂ pos = Except.ok b := by
  obtain ⟨hlt, hgd⟩ := (readBit_ok S₁ pos b).mp h
  have hlen : (S₂.take (pos + 1)).length = (S₁.take (pos + 1)).length := by rw [hag]
  simp only [List.length_take] at hlen
  have hlt2 : pos < S₂.length := by omega
  rw [readBit_ok]
  refine ⟨hlt2, ?_⟩
  have h1 : (S₂.take (pos + 1)).getD pos false = S₂.getD pos false := by
    simp only [List.getD_eq_getElem?_getD, List.getElem?_take]
    simp [Nat.lt_succ_self]
  have h2 : (S₁.take (pos + 1)).getD pos false = S₁.getD pos false := by
    simp only [List.getD_eq_getElem?_getD, List.getElem?_take]
    simp [Nat.lt_succ_self]
  rw [← h1, hag, h2, hgd]

theorem readBit_trunc (S : List Bool) (pos mT : Nat) (hm : mT ≤ pos) :
    readBit (S.take mT) pos = Except.error Err.ExhaustedInput := by
  rw [readBit, if_neg]
  simp only [List.length_take]
  omega

theorem decStep_shape (S : List Bool) (d d' : DecSt) (h : decStep S d = Except.ok d') :
    (renormDone d.low d.high ∧ d' = d) ∨
    (¬ renormDone d.low d.high ∧ d'.pos = d.pos + 1 ∧
      readBit S d.pos = Except.ok (S.getD d.pos false) ∧
      ∀ S₂, readBit S₂ d.pos = Except.ok (S.getD d.pos false) → decStep S₂ d = Except.ok d') := by
  by_cases c1 : d.high < HALFW
  · right
    rw [decStep, if_pos c1] at h
    cases hr : readBit S d.pos with
    | error e => rw [hr] at h; exact absurd h (by simp)
    | ok b =>
      rw [hr] at h
      dsimp only at h
      injection h with h2
      subst h2
      obtain ⟨hlt, hgd⟩ := (readBit_ok S d.pos b).mp hr
      refine ⟨fun hd => hd.1 c1, rfl, by rw [hgd], ?_⟩
      intro S₂ hr2
      rw [decStep, if_pos c1, hr2, hgd]
  by_cases c2 : HALFW ≤ d.low
  · right
    rw [decStep, if_neg c1, if_pos c2] at h
    cases hr : readBit S d.pos with
    | error e => rw [hr] at h; exact absurd h (by simp)
    | ok b =>
      rw [hr] at h
      dsimp only at h
      injection h with h2
      subst h2
      obtain ⟨hlt, hgd⟩ := (readBit_ok S d.pos b).mp hr
      refine ⟨fun hd => hd.2.1 c2, rfl, by rw [hgd], ?_⟩
      intro S₂ hr2
      rw [decStep, if_neg c1, if_pos c2, hr2, hgd]
  by_cases c3 : QTRW ≤ d.low ∧ d.high < 3 * QTRW
  · right
    rw [decStep, if_neg c1, if_neg c2, if_pos c3] at h
    cases hr : readBit S d.pos with
    | error e => rw [hr] at h; exact absurd h (by simp)
    | ok b =>
      rw [hr] at h
      dsimp only at h
      injection h with h2
      subst h2
      obtain ⟨hlt, hgd⟩ := (readBit_ok S d.pos b).mp hr
      refine ⟨fun hd => hd.2.2 c3, rfl, by rw [hgd], ?_⟩
      intro S₂ hr2
      rw [decStep, if_neg c1, if_neg c2, if_pos c3, hr2, hgd]
  · left
    rw [decStep, if_neg c1, if_neg c2, if_neg c3] at h
    exact ⟨⟨c1, c2, c3⟩, by injection h.symm⟩

theorem decStep_pos_mono (S : List Bool) (d d' : DecSt) (h : decStep S d = Except.ok d') :
    d.pos ≤ d'.pos := by
  rcases decStep_shape S d d' h with ⟨_, hd⟩ | ⟨_, hp, _, _⟩
  · rw [hd]
  · omega

theorem decStep_agree (S₁ S₂ : List Bool) (d d' : DecSt)
    (h : decStep S₁ d = Except.ok d') (hag : S₂.take d'.pos = S₁.take d'.pos) :
    decStep S₂ d = Except.ok d' := by
  rcases decStep_shape S₁ d d' h with ⟨hdone, hd⟩ | ⟨_, hp, hr, hgen⟩
  · subst hd
    obtain ⟨a, b, c⟩ := hdone
    rw [decStep, if_neg a, if_neg b, if_neg c]
  · exact hgen S₂ (readBit_agree S₁ S₂ d.pos _ hr (by rw [← hp]; exact hag))

theorem decStep_trunc (S : List Bool) (d d' : DecSt) (mT : Nat)
    (h : decStep S d = Except.ok d') (h1 : d.pos ≤ mT) (h2 : mT < d'.pos) :
    decStep (S.take mT) d = Except.error Err.ExhaustedInput := by
  rcases decStep_shape S d d' h with ⟨_, hd⟩ | ⟨hnd, hp, _, _⟩
  · subst hd
    omega
  · have hm : mT = d.pos := by omega
    subst hm
    have hrt := readBit_trunc S d.pos d.pos le_rfl
    by_cases c1 : d.high < HALFW
    · rw [decStep, if_pos c1, hrt]
    by_cases c2 : HALFW ≤ d.low
    · rw [decStep, if_neg c1, if_pos c2, hrt]
    by_cases c3 : QTRW ≤ d.low ∧ d.high < 3 * QTRW
    · rw [decStep, if_neg c1, if_neg c2, if_pos c3, hrt]
    · exact absurd ⟨c1, c2, c3⟩ hnd

theorem decStep_err (S : List Bool) (d : DecSt) (e : Err)
    (h : decStep S d = Except.error e) : e = Err.ExhaustedInput := by
  by_cases c1 : d.high < HALFW
  · rw [decStep, if_pos c1] at h
    cases hr : readBit S d.pos with
    | error e' =>
      rw [hr] at h
      injection h with h'
      rw [← h']
      exact ((readBit_err_iff S d.pos e').mp hr).2
    | ok b => rw [hr] at h; exact absurd h (by simp)
  by_cases c2 : HALFW ≤ d.low
  · rw [decStep, if_neg c1, if_pos c2] at h
    cases hr : readBit S d.pos with
    | error e' =>
      rw [hr] at h
      injection h with h'
      rw [← h']
      exact ((readBit_err_iff S d.pos e').mp hr).2
    | ok b => rw [hr] at h; exact absurd h (by simp)
  by_cases c3 : QTRW ≤ d.low ∧ d.high < 3 * QTRW
  · rw [decStep, if_neg c1, if_neg c2, if_pos c3] at h
    cases hr : readBit S d.pos with
    | error e' =>
      rw [hr] at h
      injection h with h'
      rw [← h']
      exact ((readBit_err_iff S d.pos e').mp hr).2
    | ok b => rw [hr] at h; exact absurd h (by simp)
  · rw [decStep, if_neg c1, if_neg c2, if_neg c3] at h
    exact absurd h (by simp)

theorem decIter_pos_mono (S : List Bool) (n : Nat) : ∀ d d',
    decIter S n d = Except.ok d' → d.pos ≤ d'.pos := by
  induction n with
  | zero =>
    intro d d' h
    rw [decIter] at h
    injection h with h'
    rw [h']
  | succ m ih =>
    intro d d' h
    rw [decIter] at h
    cases hs : decStep S d with
    | error e => rw [hs] at h; exact absurd h (by simp)
    | ok d1 =>
      rw [hs] at h
      dsimp only at h
      exact le_trans (decStep_pos_mono S d d1 hs) (ih d1 d' h)

theorem decIter_agree (S₁ S₂ : List Bool) (n : Nat) : ∀ d d',
    decIter S₁ n d = Except.ok d' → S₂.take d'.pos = S₁.take d'.pos →
    decIter S₂ n d = Except.ok d' := by
  induction n with
  | zero =>
    intro d d' h _
    rw [decIter] at h ⊢
    exact h
  | succ m ih =>
    intro d d' h hag
    rw [decIter] at h
    cases hs : decStep S₁ d with
    | error e => rw [hs] at h; exact absurd h (by simp)
    | ok d1 =>
      rw [hs] at h
      dsimp only at h
      have hmono := decIter_pos_mono S₁ m d1 d' h
      have hsa : decStep S₂ d = Except.ok d1 :=
        decStep_agree S₁ S₂ d d1 hs (take_agree_mono S₁ S₂ d1.pos d'.pos hmono hag)
      rw [decIter, hsa]
      exact ih d1 d' h hag

theorem decIter_trunc (S : List Bool) (n : Nat) : ∀ d d' mT,
    decIter S n d = Except.ok d' → d.pos ≤ mT → mT < d'.pos →
    decIter (S.take mT) n d = Except.error Err.ExhaustedInput := by
  induction n with
  | zero =>
    intro d d' mT h h1 h2
    rw [decIter] at h
    injection h with h'
    rw [h'] at h1
    omega
  | succ m ih =>
    intro d d' mT h h1 h2
    rw [decIter] at h
    cases hs : decStep S d with
    | error e => rw [hs] at h; exact absurd h (by simp)
    | ok d1 =>
      rw [hs] at h
      dsimp only at h
      by_cases hcmp : d1.pos ≤ mT
      · have hsa : decStep (S.take mT) d = Except.ok d1 :=
          decStep_agree S (S.take mT) d d1 hs (take_take_self S d1.pos mT hcmp)
        rw [decIter, hsa]
        exact ih d1 d' mT h hcmp h2
      · have hst := decStep_trunc S d d1 mT hs h1 (by omega)
        rw [decIter, hst]

theorem decIter_err (S : List Bool) (n : Nat) : ∀ d e,
    decIter S n d = Except.error e → e = Err.ExhaustedInput := by
  induction n with
  | zero =>
    intro d e h
    rw [decIter] at h
    exact absurd h (by simp)
  | succ m ih =>
    intro d e h
    rw [decIter] at h
    cases hs : decStep S d with
    | error e' =>
      rw [hs] at h
      dsimp only at h
      injection h with h'
      rw [← h']
      exact decStep_err S d e' hs
    | ok d1 =>
      rw [hs] at h
      dsimp only at h
      exact ih d1 e h

theorem decodeBit_shape (S : List Bool) (d : DecSt) (p : Nat) (b : Bool) (d' : DecSt)
    (h : decodeBit S d p = Except.ok (b, d')) :
    ∃ d1 : DecSt, d1.pos = d.pos ∧ decIter S 16 d1 = Except.ok d' ∧
      ∀ S₂, decIter S₂ 16 d1 = Except.ok d' → decodeBit S₂ d p = Except.ok (b, d') := by
  rw [decodeBit] at h
  by_cases hc : d.val ≤ d.low + cut d.low d.high p - 1
  · rw [if_pos hc] at h
    cases hi : decIter S 16 { d with high := d.low + cut d.low d.high p - 1 } with
    | error e => rw [hi] at h; exact absurd h (by simp)
    | ok d2 =>
      rw [hi] at h
      dsimp only at h
      injection h with h2
      injection h2 with hb hd
      subst hb
      subst hd
      refine ⟨{ d with high := d.low + cut d.low d.high p - 1 }, rfl, hi, ?_⟩
      intro S₂ hi2
      rw [decodeBit]
      rw [if_pos hc, hi2]
  · rw [if_neg hc] at h
    cases hi : decIter S 16 { d with low := d.low + cut d.low d.high p } with
    | error e => rw [hi] at h; exact absurd h (by simp)
    | ok d2 =>
      rw [hi] at h
      dsimp only at h
      injection h with h2
      injection h2 with hb hd
      subst hb
      subst hd
      refine ⟨{ d with low := d.low + cut d.low d.high p }, rfl, hi, ?_⟩
      intro S₂ hi2
      rw [decodeBit]
      rw [if_neg hc, hi2]

theorem decodeBit_pos_mono (S : List Bool) (d : DecSt) (p : Nat) (b : Bool) (d' : DecSt)
    (h : decodeBit S d p = Except.ok (b, d')) : d.pos ≤ d'.pos := by
  obtain ⟨d1, hp, hi, _⟩ := decodeBit_shape S d p b d' h
  rw [← hp]
  exact decIter_pos_mono S 16 d1 d' hi

theorem decodeBit_agree (S₁ S₂ : List Bool) (d : DecSt) (p : Nat) (b : Bool) (d' : DecSt)
    (h : decodeBit S₁ d p = Except.ok (b, d'))
    (hag : S₂.take d'.pos = S₁.take d'.pos) : decodeBit S₂ d p = Except.ok (b, d') := by
  obtain ⟨d1, _, hi, hgen⟩ := decodeBit_shape S₁ d p b d' h
  exact hgen S₂ (decIter_agree S₁ S₂ 16 d1 d' hi hag)

theorem decodeBit_trunc (S : List Bool) (d : DecSt) (p : Nat) (b : Bool) (d' : DecSt) (mT : Nat)
    (h : decodeBit S d p = Except.ok (b, d')) (h1 : d.pos ≤ mT) (h2 : mT < d'.pos) :
    decodeBit (S.take mT) d p = Except.error Err.ExhaustedInput := by
  rw [decodeBit] at h ⊢
  by_cases hc : d.val ≤ d.low + cut d.low d.high p - 1
  · rw [if_pos hc] at h ⊢
    cases hi : decIter S 16 { d with high := d.low + cut d.low d.high p - 1 } with
    | error e => rw [hi] at h; exact absurd h (by simp)
    | ok d2 =>
      rw [hi] at h
      dsimp only at h
      injection h with h2'
      injection h2' with hb hd
      subst hd
      rw [decIter_trunc S 16 _ d2 mT hi h1 h2]
  · rw [if_neg hc] at h ⊢
    cases hi : decIter S 16 { d with low := d.low + cut d.low d.high p } with
    | error e => rw [hi] at h; exact absurd h (by simp)
    | ok d2 =>
      rw [hi] at h
      dsimp only at h
      injection h with h2'
      injection h2' with hb hd
      subst hd
      rw [decIter_trunc S 16 _ d2 mT hi h1 h2]

theorem decodeBit_err (S : List Bool) (d : DecSt) (p : Nat) (e : Err)
    (h : decodeBit S d p = Except.error e) : e = Err.ExhaustedInput := by
  rw [decodeBit] at h
  by_cases hc : d.val ≤ d.low + cut d.low d.high p - 1
  · rw [if_pos hc] at h
    cases hi : decIter S 16 { d with high := d.low + cut d.low d.high p - 1 } with
    | error e' =>
      rw [hi] at h
      dsimp only at h
      injection h with h'
      rw [← h']
      exact decIter_err S 16 _ e' hi
    | ok d2 => rw [hi] at h; exact absurd h (by simp)
  · rw [if_neg hc] at h
    cases hi : decIter S 16 { d with low := d.low + cut d.low d.high p } with
    | error e' =>
      rw [hi] at h
      dsimp only at h
      injection h with h'
      rw [← h']
      exact decIter_err S 16 _ e' hi
    | ok d2 => rw [hi] at h; exact absurd h (by simp)

theorem decUn_pos_mono (S : List Bool) (base : Nat) : ∀ (allow j : Nat) (d : DecSt) (tab : Tab)
    (m : Nat) (d' : DecSt) (tab' : Tab),
    decUn S base j allow d tab = Except.ok (m, d', tab') → d.pos ≤ d'.pos := by
  intro allow
  induction allow with
  | zero =>
    intro j d tab m d' tab' h
    rw [decUn] at h
    cases hdb : decodeBit S d (tab (ctxMag base j)) with
    | error e => rw [hdb] at h; exact absurd h (by simp)
    | ok bd =>
      obtain ⟨b, d1⟩ := bd
      rw [hdb] at h
      dsimp only at h
      cases b with
      | true => rw [if_pos rfl] at h; exact absurd h (by simp)
      | false =>
        rw [if_neg (by simp)] at h
        injection h with h2
        injection h2 with hm h3
        injection h3 with hd ht
        rw [← hd]
        exact decodeBit_pos_mono S d _ false d1 hdb
  | succ a ih =>
    intro j d tab m d' tab' h
    rw [decUn] at h
    cases hdb : decodeBit S d (tab (ctxMag base j)) with
    | error e => rw [hdb] at h; exact absurd h (by simp)
    | ok bd =>
      obtain ⟨b, d1⟩ := bd
      rw [hdb] at h
      dsimp only at h
      cases b with
      | false =>
        rw [if_neg (by simp)] at h
        injection h with h2
        injection h2 with hm h3
        injection h3 with hd ht
        rw [← hd]
        exact decodeBit_pos_mono S d _ false d1 hdb
      | true =>
        rw [if_pos rfl] at h
        cases hrec : decUn S base (j + 1) a d1
            (upd tab (ctxMag base j) (adapt (tab (ctxMag base j)) true)) with
        | error e => rw [hrec] at h; exact absurd h (by simp)
        | ok mdt =>
          obtain ⟨m2, d2, t2⟩ := mdt
          rw [hrec] at h
          dsimp only at h
          injection h with h2
          injection h2 with hm h3
          injection h3 with hd ht
          rw [← hd]
          exact le_trans (decodeBit_pos_mono S d _ true d1 hdb)
            (ih (j + 1) d1 _ m2 d2 t2 hrec)

theorem decUn_agree (S₁ S₂ : List Bool) (base : Nat) : ∀ (allow j : Nat) (d : DecSt) (tab : Tab)
    (m : Nat) (d' : DecSt) (tab' : Tab),
    decUn S₁ base j allow d tab = Except.ok (m, d', tab') →
    S₂.take d'.pos = S₁.take d'.pos →
    decUn S₂ base j allow d tab = Except.ok (m, d', tab') := by
  intro allow
  induction allow with
  | zero =>
    intro j d tab m d' tab' h hag
    rw [decUn] at h
    cases hdb : decodeBit S₁ d (tab (ctxMag base j)) with
    | error e => rw [hdb] at h; exact absurd h (by simp)
    | ok bd =>
      obtain ⟨b, d1⟩ := bd
      rw [hdb] at h
      dsimp only at h
      cases b with
      | true => rw [if_pos rfl] at h; exact absurd h (by simp)
      | false =>
        rw [if_neg (by simp)] at h
        injection h with h2
        injection h2 with hm h3
        injection h3 with hd ht
        subst hd
        have hdb2 := decodeBit_agree S₁ S₂ d _ false d1 hdb hag
        rw [decUn, hdb2]
        dsimp only
        rw [if_neg (by simp), hm, ht]
  | succ a ih =>
    intro j d tab m d' tab' h hag
    rw [decUn] at h
    cases hdb : decodeBit S₁ d (tab (ctxMag base j)) with
    | error e => rw [hdb] at h; exact absurd h (by simp)
    | ok bd =>
      obtain ⟨b, d1⟩ := bd
      rw [hdb] at h
      dsimp only at h
      cases b with
      | false =>
        rw [if_neg (by simp)] at h
        injection h with h2
        injection h2 with hm h3
        injection h3 with hd ht
        subst hd
        have hdb2 := decodeBit_agree S₁ S₂ d _ false d1 hdb hag
        rw [decUn, hdb2]
        dsimp only
        rw [if_neg (by simp), hm, ht]
      | true =>
        rw [if_pos rfl] at h
        cases hrec : decUn S₁ base (j + 1) a d1
            (upd tab (ctxMag base j) (adapt (tab (ctxMag base j)) true)) with
        | error e => rw [hrec] at h; exact absurd h (by simp)
        | ok mdt =>
          obtain ⟨m2, d2, t2⟩ := mdt
          rw [hrec] at h
          dsimp only at h
          injection h with h2
          injection h2 with hm h3
          injection h3 with hd ht
          subst hd
          have hrecm := decUn_pos_mono S₁ base a (j + 1) d1 _ m2 d2 t2 hrec
          have hdb2 := decodeBit_agree S₁ S₂ d _ true d1 hdb
            (take_agree_mono S₁ S₂ d1.pos d2.pos hrecm hag)
          have hrec2 := ih (j + 1) d1 _ m2 d2 t2 hrec hag
          rw [decUn, hdb2]
          dsimp only
          rw [if_pos rfl, hrec2]
          dsimp only
          rw [hm, ht]

theorem decUn_trunc (S : List Bool) (base : Nat) : ∀ (allow j : Nat) (d : DecSt) (tab : Tab)
    (m : Nat) (d' : DecSt) (tab' : Tab) (mT : Nat),
    decUn S base j allow d tab = Except.ok (m, d', tab') →
    d.pos ≤ mT → mT < d'.pos →
    decUn (S.take mT) base j allow d tab = Except.error Err.ExhaustedInput := by
  intro allow
  induction allow with
  | zero =>
    intro j d tab m d' tab' mT h h1 h2
    rw [decUn] at h
    cases hdb : decodeBit S d (tab (ctxMag base j)) with
    | error e => rw [hdb] at h; exact absurd h (by simp)
    | ok bd =>
      obtain ⟨b, d1⟩ := bd
      rw [hdb] at h
      dsimp only at h
      cases b with
      | true => rw [if_pos rfl] at h; exact absurd h (by simp)
      | false =>
        rw [if_neg (by simp)] at h
        injection h with h2'
        injection h2' with hm h3
        injection h3 with hd ht
        subst hd
        rw [decUn, decodeBit_trunc S d _ false d1 mT hdb h1 h2]
  | succ a ih =>
    intro j d tab m d' tab' mT h h1 h2
    rw [decUn] at h
    cases hdb : decodeBit S d (tab (ctxMag base j)) with
    | error e => rw [hdb] at h; exact absurd h (by simp)
    | ok bd =>
      obtain ⟨b, d1⟩ := bd
      rw [hdb] at h
      dsimp only at h
      cases b with
      | false =>
        rw [if_neg (by simp)] at h
        injection h with h2'
        injection h2' with hm h3
        injection h3 with hd ht
        subst hd
        rw [decUn, decodeBit_trunc S d _ false d1 mT hdb h1 h2]
      | true =>
        rw [if_pos rfl] at h
        cases hrec : decUn S base (j + 1) a d1
            (upd tab (ctxMag base j) (adapt (tab (ctxMag base j)) true)) with
        | error e => rw [hrec] at h; exact absurd h (by simp)
        | ok mdt =>
          obtain ⟨m2, d2, t2⟩ := mdt
          rw [hrec] at h
          dsimp only at h
          injection h with h2'
          injection h2' with hm h3
          injection h3 with hd ht
          subst hd
          by_cases hcmp : d1.pos ≤ mT
          · have hdb2 := decodeBit_agree S (S.take mT) d _ true d1 hdb
              (take_take_self S d1.pos mT hcmp)
            rw [decUn, hdb2]
            dsimp only
            rw [if_pos rfl, ih (j + 1) d1 _ m2 d2 t2 mT hrec hcmp h2]
          · have hdbt := decodeBit_trunc S d _ true d1 mT hdb h1 (by omega)
            rw [decUn, hdbt]

theorem decUn_err (S : List Bool) (base : Nat) : ∀ (allow j : Nat) (d : DecSt) (tab : Tab)
    (e : Err), decUn S base j allow d tab = Except.error e →
    e = Err.ExhaustedInput ∨ e = Err.CorruptStream := by
  intro allow
  induction allow with
  | zero =>
    intro j d tab e h
    rw [decUn] at h
    cases hdb : decodeBit S d (tab (ctxMag base j)) with
    | error e' =>
      rw [hdb] at h
      dsimp only at h
      injection h with h'
      rw [← h']
      exact Or.inl (decodeBit_err S d _ e' hdb)
    | ok bd =>
      obtain ⟨b, d1⟩ := bd
      rw [hdb] at h
      dsimp only at h
      cases b with
      | true =>
        rw [if_pos rfl] at h
        injection h with h'
        exact Or.inr h'.symm
      | false => rw [if_neg (by simp)] at h; exact absurd h (by simp)
  | succ a ih =>
    intro j d tab e h
    rw [decUn] at h
    cases hdb : decodeBit S d (tab (ctxMag base j)) with
    | error e' =>
      rw [hdb] at h
      dsimp only at h
      injection h with h'
      rw [← h']
      exact Or.inl (decodeBit_err S d _ e' hdb)
    | ok bd =>
      obtain ⟨b, d1⟩ := bd
      rw [hdb] at h
      dsimp only at h
      cases b with
      | false => rw [if_neg (by simp)] at h; exact absurd h (by simp)
      | true =>
        rw [if_pos rfl] at h
        cases hrec : decUn S base (j + 1) a d1
            (upd tab (ctxMag base j) (adapt (tab (ctxMag base j)) true)) with
        | error e' =>
          rw [hrec] at h
          dsimp only at h
          injection h with h'
          rw [← h']
          exact ih (j + 1) d1 _ e' hrec
        | ok mdt =>
          obtain ⟨m2, d2, t2⟩ := mdt
          rw [hrec] at h
          exact absurd h (by simp)

theorem decSym_shape (S : List Bool) (base bound : Nat) (d : DecSt) (tab : Tab)
    (x : Int) (d' : DecSt) (tab' : Tab)
    (h : decSym S base bound d tab = Except.ok (x, d', tab')) :
    ∃ m d1 t1, decUn S base 0 bound d tab = Except.ok (m, d1, t1) ∧
      ((m = 0 ∧ d' = d1) ∨
       (m ≠ 0 ∧ ∃ neg, decodeBit S d1 (t1 (ctxSign base)) = Except.ok (neg, d')
          ∧ ∀ S₂, decUn S₂ base 0 bound d tab = Except.ok (m, d1, t1) →
              decodeBit S₂ d1 (t1 (ctxSign base)) = Except.ok (neg, d') →
              decSym S₂ base bound d tab = Except.ok (x, d', tab'))) := by
  rw [decSym] at h
  cases hUn : decUn S base 0 bound d tab with
  | error e => rw [hUn] at h; exact absurd h (by simp)
  | ok mdt =>
    obtain ⟨m, d1, t1⟩ := mdt
    rw [hUn] at h
    dsimp only at h
    by_cases hm : m = 0
    · rw [if_pos hm] at h
      injection h with h2
      injection h2 with hx h3
      injection h3 with hd ht
      exact ⟨m, d1, t1, rfl, Or.inl ⟨hm, hd.symm⟩⟩
    · rw [if_neg hm] at h
      cases hdb : decodeBit S d1 (t1 (ctxSign base)) with
      | error e => rw [hdb] at h; exact absurd h (by simp)
      | ok nd =>
        obtain ⟨neg, d2⟩ := nd
        rw [hdb] at h
        dsimp only at h
        injection h with h2
        injection h2 with hx h3
        injection h3 with hd ht
        subst hd
        refine ⟨m, d1, t1, rfl, Or.inr ⟨hm, neg, hdb, ?_⟩⟩
        intro S₂ hUn2 hdb2
        rw [decSym, hUn2]
        dsimp only
        rw [if_neg hm, hdb2]
        dsimp only
        rw [hx, ht]

theorem decSym_pos_mono (S : List Bool) (base bound : Nat) (d : DecSt) (tab : Tab)
    (x : Int) (d' : DecSt) (tab' : Tab)
    (h : decSym S base bound d tab = Except.ok (x, d', tab')) : d.pos ≤ d'.pos := by
  obtain ⟨m, d1, t1, hUn, hrest⟩ := decSym_shape S base bound d tab x d' tab' h
  have h1 := decUn_pos_mono S base bound 0 d tab m d1 t1 hUn
  rcases hrest with ⟨_, hd⟩ | ⟨_, neg, hdb, _⟩
  · rw [hd]; exact h1
  · exact le_trans h1 (decodeBit_pos_mono S d1 _ neg d' hdb)

theorem decSym_agree (S₁ S₂ : List Bool) (base bound : Nat) (d : DecSt) (tab : Tab)
    (x : Int) (d' : DecSt) (tab' : Tab)
    (h : decSym S₁ base bound d tab = Except.ok (x, d', tab'))
    (hag : S₂.take d'.pos = S₁.take d'.pos) :
    decSym S₂ base bound d tab = Except.ok (x, d', tab') := by
  obtain ⟨m, d1, t1, hUn, hrest⟩ := decSym_shape S₁ base bound d tab x d' tab' h
  rcases hrest with ⟨hm, hd⟩ | ⟨hm, neg, hdb, hgen⟩
  · subst hd
    have hUn2 := decUn_agree S₁ S₂ base bound 0 d tab m d' t1 hUn hag
    rw [decSym, hUn2]
    dsimp only
    rw [if_pos hm]
    rw [decSym, hUn] at h
    dsimp only at h
    rw [if_pos hm] at h
    exact h
  · have hmono := decodeBit_pos_mono S₁ d1 _ neg d' hdb
    have hUn2 := decUn_agree S₁ S₂ base bound 0 d tab m d1 t1 hUn
      (take_agree_mono S₁ S₂ d1.pos d'.pos hmono hag)
    exact hgen S₂ hUn2 (decodeBit_agree S₁ S₂ d1 _ neg d' hdb hag)

theorem decSym_trunc (S : List Bool) (base bound : Nat) (d : DecSt) (tab : Tab)
    (x : Int) (d' : DecSt) (tab' : Tab) (mT : Nat)
    (h : decSym S base bound d tab = Except.ok (x, d', tab'))
    (h1 : d.pos ≤ mT) (h2 : mT < d'.pos) :
    decSym (S.take mT) base bound d tab = Except.error Err.ExhaustedInput := by
  obtain ⟨m, d1, t1, hUn, hrest⟩ := decSym_shape S base bound d tab x d' tab' h
  rcases hrest with ⟨hm, hd⟩ | ⟨hm, neg, hdb, _⟩
  · subst hd
    rw [decSym, decUn_trunc S base bound 0 d tab m d' t1 mT hUn h1 h2]
  · by_cases hcmp : d1.pos ≤ mT
    · have hUn2 := decUn_agree S (S.take mT) base bound 0 d tab m d1 t1 hUn
        (take_take_self S d1.pos mT hcmp)
      rw [decSym, hUn2]
      dsimp only
      rw [if_neg hm, decodeBit_trunc S d1 _ neg d' mT hdb hcmp h2]
    · rw [decSym, decUn_trunc S base bound 0 d tab m d1 t1 mT hUn h1 (by omega)]

theorem decSym_err (S : List Bool) (base bound : Nat) (d : DecSt) (tab : Tab) (e : Err)
    (h : decSym S base bound d tab = Except.error e) :
    e = Err.ExhaustedInput ∨ e = Err.CorruptStream := by
  rw [decSym] at h
  cases hUn : decUn S base 0 bound d tab with
  | error e' =>
    rw [hUn] at h
    dsimp only at h
    injection h with h'
    rw [← h']
    exact decUn_err S base bound 0 d tab e' hUn
  | ok mdt =>
    obtain ⟨m, d1, t1⟩ := mdt
    rw [hUn] at h
    dsimp only at h
    by_cases hm : m = 0
    · rw [if_pos hm] at h
      exact absurd h (by simp)
    · rw [if_neg hm] at h
      cases hdb : decodeBit S d1 (t1 (ctxSign base)) with
      | error e' =>
        rw [hdb] at h
        dsimp only at h
        injection h with h'
        rw [← h']
        exact Or.inl (decodeBit_err S d1 _ e' hdb)
      | ok nd =>
        obtain ⟨neg, d2⟩ := nd
        rw [hdb] at h
        exact absurd h (by simp)

theorem decSyms_pos_mono (S : List Bool) (cols bound : Nat) : ∀ (k : Nat) (d : DecSt)
    (tab : Tab) (acc res : List Int) (d' : DecSt) (tab' : Tab),
    decSyms S cols bound k d tab acc = Except.ok (res, d', tab') → d.pos ≤ d'.pos := by
  intro k
  induction k with
  | zero =>
    intro d tab acc res d' tab' h
    rw [decSyms] at h
    injection h with h2
    injection h2 with hres h3
    injection h3 with hd ht
    rw [← hd]
  | succ k2 ih =>
    intro d tab acc res d' tab' h
    rw [decSyms] at h
    cases hSym : decSym S (ctxBase cols acc) bound d tab with
    | error e => rw [hSym] at h; exact absurd h (by simp)
    | ok xdt =>
      obtain ⟨x, d1, t1⟩ := xdt
      rw [hSym] at h
      dsimp only at h
      exact le_trans (decSym_pos_mono S _ bound d tab x d1 t1 hSym)
        (ih d1 t1 (acc ++ [x]) res d' tab' h)

theorem decSyms_agree (S₁ S₂ : List Bool) (cols bound : Nat) : ∀ (k : Nat) (d : DecSt)
    (tab : Tab) (acc res : List Int) (d' : DecSt) (tab' : Tab),
    decSyms S₁ cols bound k d tab acc = Except.ok (res, d', tab') →
    S₂.take d'.pos = S₁.take d'.pos →
    decSyms S₂ cols bound k d tab acc = Except.ok (res, d', tab') := by
  intro k
  induction k with
  | zero =>
    intro d tab acc res d' tab' h _
    rw [decSyms] at h ⊢
    exact h
  | succ k2 ih =>
    intro d tab acc res d' tab' h hag
    rw [decSyms] at h
    cases hSym : decSym S₁ (ctxBase cols acc) bound d tab with
    | error e => rw [hSym] at h; exact absurd h (by simp)
    | ok xdt =>
      obtain ⟨x, d1, t1⟩ := xdt
      rw [hSym] at h
      dsimp only at h
      have hmono := decSyms_pos_mono S₁ cols bound k2 d1 t1 (acc ++ [x]) res d' tab' h
      have hSym2 := decSym_agree S₁ S₂ _ bound d tab x d1 t1 hSym
        (take_agree_mono S₁ S₂ d1.pos d'.pos hmono hag)
      rw [decSyms, hSym2]
      exact ih d1 t1 (acc ++ [x]) res d' tab' h hag

theorem decSyms_trunc (S : List Bool) (cols bound : Nat) : ∀ (k : Nat) (d : DecSt)
    (tab : Tab) (acc res : List Int) (d' : DecSt) (tab' : Tab) (mT : Nat),
    decSyms S cols bound k d tab acc = Except.ok (res, d', tab') →
    d.pos ≤ mT → mT < d'.pos →
    decSyms (S.take mT) cols bound k d tab acc = Except.error Err.ExhaustedInput := by
  intro k
  induction k with
  | zero =>
    intro d tab acc res d' tab' mT h h1 h2
    rw [decSyms] at h
    injection h with h2'
    injection h2' with hres h3
    injection h3 with hd ht
    rw [← hd] at h2
    omega
  | succ k2 ih =>
    intro d tab acc res d' tab' mT h h1 h2
    rw [decSyms] at h
    cases hSym : decSym S (ctxBase cols acc) bound d tab with
    | error e => rw [hSym] at h; exact absurd h (by simp)
    | ok xdt =>
      obtain ⟨x, d1, t1⟩ := xdt
      rw [hSym] at h
      dsimp only at h
      by_cases hcmp : d1.pos ≤ mT
      · have hSym2 := decSym_agree S (S.take mT) _ bound d tab x d1 t1 hSym
          (take_take_self S d1.pos mT hcmp)
        rw [decSyms, hSym2]
        exact ih d1 t1 (acc ++ [x]) res d' tab' mT h hcmp h2
      · rw [decSyms, decSym_trunc S _ bound d tab x d1 t1 mT hSym h1 (by omega)]

theorem decSyms_err (S : List Bool) (cols bound : Nat) : ∀ (k : Nat) (d : DecSt)
    (tab : Tab) (acc : List Int) (e : Err),
    decSyms S cols bound k d tab acc = Except.error e →
    e = Err.ExhaustedInput ∨ e = Err.CorruptStream := by
  intro k
  induction k with
  | zero =>
    intro d tab acc e h
    rw [decSyms] at h
    exact absurd h (by simp)
  | succ k2 ih =>
    intro d tab acc e h
    rw [decSyms] at h
    cases hSym : decSym S (ctxBase cols acc) bound d tab with
    | error e' =>
      rw [hSym] at h
      dsimp only at h
      injection h with h'
      rw [← h']
      exact decSym_err S _ bound d tab e' hSym
    | ok xdt =>
      obtain ⟨x, d1, t1⟩ := xdt
      rw [hSym] at h
      dsimp only at h
      exact ih d1 t1 (acc ++ [x]) e h

/-! ## Lemmas: the compression façade -/

theorem headerBytes_length (c : Cfg) : (headerBytes c).length = 5 := rfl

theorem parseHdr_header (c : Cfg) (X : List Nat) :
    parseHdr (headerBytes c ++ X) = (256 * (c.rows / 256) + c.rows % 256,
      256 * (c.cols / 256) + c.cols % 256, c.bound) := by
  have g0 : (headerBytes c ++ X).getD 0 0 = c.rows / 256 := by
    rw [List.getD_append _ _ _ _ (by rw [headerBytes_length]; omega)]
    rfl
  have g1 : (headerBytes c ++ X).getD 1 0 = c.rows % 256 := by
    rw [List.getD_append _ _ _ _ (by rw [headerBytes_length]; omega)]
    rfl
  have g2 : (headerBytes c ++ X).getD 2 0 = c.cols / 256 := by
    rw [List.getD_append _ _ _ _ (by rw [headerBytes_length]; omega)]
    rfl
  have g3 : (headerBytes c ++ X).getD 3 0 = c.cols % 256 := by
    rw [List.getD_append _ _ _ _ (by rw [headerBytes_length]; omega)]
    rfl
  have g4 : (headerBytes c ++ X).getD 4 0 = c.bound := by
    rw [List.getD_append _ _ _ _ (by rw [headerBytes_length]; omega)]
    rfl
  rw [parseHdr, g0, g1, g2, g3, g4]

theorem hdrBad_header (c : Cfg) (X : List Nat) (hc : cfgOk c = true) :
    hdrBad c (headerBytes c ++ X) = false := by
  simp only [cfgOk, decide_eq_true_eq] at hc
  obtain ⟨h1, h2, h3, h4, h5, h6⟩ := hc
  have hrows : 256 * (c.rows / 256) + c.rows % 256 = c.rows := by omega
  have hcols : 256 * (c.cols / 256) + c.cols % 256 = c.cols := by omega
  rw [hdrBad, parseHdr_header, Bool.or_eq_false_iff]
  constructor
  · rw [decide_eq_false_iff_not, not_lt, List.length_append, headerBytes_length]
    omega
  · rw [Bool.not_eq_false', decide_eq_true_eq]
    rw [hrows, hcols]
    exact ⟨h1, h3, h5, h6, rfl, rfl, rfl⟩

theorem encode_eq_ok (cfg : Cfg) (m : List Int) (hc : cfgOk cfg = true)
    (hlen : m.length = cfg.rows * cfg.cols) (hbnd : ∀ x ∈ m, x.natAbs ≤ cfg.bound) :
    encode cfg m = Except.ok (headerBytes cfg ++ bitsToBytes (payloadBits cfg.cols m)) := by
  have hall : m.all (fun x => x.natAbs ≤ cfg.bound) = true := by
    rw [List.all_eq_true]
    intro x hx
    simpa using hbnd x hx
  rw [encode, if_neg (by simp [hc]), if_neg (by simp [hlen]), if_neg (by simp [hall])]

theorem readAcc_trunc (S : List Bool) (n : Nat) : ∀ (pos acc mT : Nat),
    pos + n ≤ S.length → pos ≤ mT → mT < pos + n →
    readAcc (S.take mT) n pos acc = Except.error Err.ExhaustedInput := by
  induction n with
  | zero =>
    intro pos acc mT _ h1 h2
    omega
  | succ k ih =>
    intro pos acc mT hS h1 h2
    by_cases hm : pos = mT
    · subst hm
      rw [readAcc, readBit_trunc S pos pos le_rfl]
    · have hposS : pos < S.length := by omega
      have hposm : pos < mT := by omega
      have hr : readBit (S.take mT) pos = Except.ok (S.getD pos false) :=
        readBit_agree S (S.take mT) pos _ ((readBit_ok S pos _).mpr ⟨hposS, rfl⟩)
          (take_take_self S (pos + 1) mT (by omega))
      rw [readAcc, hr]
      dsimp only
      exact ih (pos + 1) (2 * acc + (S.getD pos false).toNat) mT (by omega) (by omega) (by omega)

theorem readAcc_err (S : List Bool) (n : Nat) : ∀ (pos acc : Nat) (e : Err),
    readAcc S n pos acc = Except.error e → e = Err.ExhaustedInput := by
  induction n with
  | zero =>
    intro pos acc e h
    rw [readAcc] at h
    exact absurd h (by simp)
  | succ k ih =>
    intro pos acc e h
    rw [readAcc] at h
    cases hr : readBit S pos with
    | error e' =>
      rw [hr] at h
      dsimp only at h
      injection h with h'
      rw [← h']
      exact ((readBit_err_iff S pos e').mp hr).2
    | ok b =>
      rw [hr] at h
      dsimp only at h
      exact ih (pos + 1) (2 * acc + b.toNat) e h

theorem decode_of_valid (cfg : Cfg) (m : List Int) (hc : cfgOk cfg = true)
    (hlen : m.length = cfg.rows * cfg.cols) (hbnd : ∀ x ∈ m, x.natAbs ≤ cfg.bound) :
    decode cfg (headerBytes cfg ++ bitsToBytes (payloadBits cfg.cols m)) = Except.ok m := by
  obtain ⟨dF, tF, h16, hread, hsyms, hpos⟩ := payload_sim cfg.cols cfg.bound m hbnd
  rw [decode, hdrBad_header cfg _ hc]
  rw [if_neg (by simp)]
  rw [show (5:Nat) = (headerBytes cfg).length from rfl, List.drop_left]
  obtain ⟨k, hk8, hSP⟩ := bytesToBits_bitsToBytes (payloadBits cfg.cols m)
  rw [hSP]
  have htk16 : (payloadBits cfg.cols m ++ List.replicate k false).take 16
      = (payloadBits cfg.cols m).take 16 := List.take_append_of_le_length h16
  have hread' : readAcc (payloadBits cfg.cols m ++ List.replicate k false) 16 0 0
      = Except.ok (bitsToNat ((payloadBits cfg.cols m).take 16), 16) := by
    rw [readAcc_spec _ 16 0 0 (by rw [List.length_append]; omega)]
    rw [List.drop_zero, htk16]
    simp
  have hagree : (payloadBits cfg.cols m ++ List.replicate k false).take dF.pos
      = (payloadBits cfg.cols m).take dF.pos := by
    rw [hpos]
    exact List.take_append_of_le_length le_rfl
  have hsyms' := decSyms_agree (payloadBits cfg.cols m)
    (payloadBits cfg.cols m ++ List.replicate k false) cfg.cols cfg.bound m.length
    ⟨0, 65535, bitsToNat ((payloadBits cfg.cols m).take 16), 16⟩ tab0 [] m dF tF hsyms hagree
  rw [decodePayload, hread', ← hlen]
  dsimp only
  rw [hsyms']

theorem decodePayload_err (S : List Bool) (cols bound count : Nat) (e : Err)
    (h : decodePayload S cols bound count = Except.error e) :
    e = Err.ExhaustedInput ∨ e = Err.CorruptStream := by
  rw [decodePayload] at h
  cases hr : readAcc S 16 0 0 with
  | error e' =>
    rw [hr] at h
    dsimp only at h
    injection h with h'
    rw [← h']
    exact Or.inl (readAcc_err S 16 0 0 e' hr)
  | ok vp =>
    obtain ⟨v, pos⟩ := vp
    rw [hr] at h
    dsimp only at h
    cases hs : decSyms S cols bound count ⟨0, 65535, v, pos⟩ tab0 [] with
    | error e' =>
      rw [hs] at h
      dsimp only at h
      injection h with h'
      rw [← h']
      exact decSyms_err S cols bound count _ tab0 [] e' hs
    | ok rdt =>
      obtain ⟨res, dF, tF⟩ := rdt
      rw [hs] at h
      exact absurd h (by simp)

theorem hdrBad_take5 (cfg : Cfg) (b1 b2 : List Nat) (h : b1.take 5 = b2.take 5) :
    hdrBad cfg b1 = hdrBad cfg b2 := by
  have hlen : min 5 b1.length = min 5 b2.length := by
    have := congrArg List.length h
    simpa [List.length_take] using this
  have hlt : decide (b1.length < 5) = decide (b2.length < 5) :=
    decide_eq_decide.mpr (by omega)
  have hg : ∀ i, i < 5 → b1.getD i 0 = b2.getD i 0 := by
    intro i hi
    have e1 : (b1.take 5).getD i 0 = b1.getD i 0 := by
      simp only [List.getD_eq_getElem?_getD, List.getElem?_take]
      simp [hi]
    have e2 : (b2.take 5).getD i 0 = b2.getD i 0 := by
      simp only [List.getD_eq_getElem?_getD, List.getElem?_take]
      simp [hi]
    rw [← e1, h, e2]
  rw [hdrBad, hdrBad, parseHdr, parseHdr]
  rw [hg 0 (by omega), hg 1 (by omega), hg 2 (by omega), hg 3 (by omega), hg 4 (by omega), hlt]

/-- Decoding a payload truncated below the bits the decoder must consume
fails with `ExhaustedInput`. -/
theorem decode_truncated (cfg : Cfg) (m : List Int) (hc : cfgOk cfg = true)
    (hlen : m.length = cfg.rows * cfg.cols) (hbnd : ∀ x ∈ m, x.natAbs ≤ cfg.bound) :
    decode cfg ((headerBytes cfg ++ bitsToBytes (payloadBits cfg.cols m)).dropLast)
      = Except.error Err.ExhaustedInput := by
  obtain ⟨dF, tF, h16, hread, hsyms, hpos⟩ := payload_sim cfg.cols cfg.bound m hbnd
  have hPlen : (bitsToBytes (payloadBits cfg.cols m)).length
      = ((payloadBits cfg.cols m).length + 7) / 8 := bitsToBytes_length _
  have hB2 : 2 ≤ (bitsToBytes (payloadBits cfg.cols m)).length := by
    rw [hPlen]
    omega
  have hPne : bitsToBytes (payloadBits cfg.cols m) ≠ [] := by
    intro hnil
    rw [hnil] at hB2
    simp at hB2
  rw [List.dropLast_append_of_ne_nil _ hPne]
  rw [List.dropLast_eq_take]
  rw [decode, hdrBad_header cfg _ hc, if_neg (by simp)]
  rw [show (5:Nat) = (headerBytes cfg).length from rfl, List.drop_left]
  rw [bytesToBits_take]
  obtain ⟨k, hk8, hSP⟩ := bytesToBits_bitsToBytes (payloadBits cfg.cols m)
  rw [hSP]
  have hmdef : 8 * ((bitsToBytes (payloadBits cfg.cols m)).length - 1)
      < (payloadBits cfg.cols m).length := by
    rw [hPlen]
    have hd8 : ((payloadBits cfg.cols m).length + 7) / 8 * 8 ≤ (payloadBits cfg.cols m).length + 7 :=
      Nat.div_mul_le_self _ 8
    omega
  have htk : (payloadBits cfg.cols m ++ List.replicate k false).take
        (8 * ((bitsToBytes (payloadBits cfg.cols m)).length - 1))
      = (payloadBits cfg.cols m).take (8 * ((bitsToBytes (payloadBits cfg.cols m)).length - 1)) :=
    List.take_append_of_le_length (by omega)
  rw [htk]
  set mT := 8 * ((bitsToBytes (payloadBits cfg.cols m)).length - 1) with hmT
  by_cases hm16 : mT < 16
  · have hra := readAcc_trunc (payloadBits cfg.cols m) 16 0 0 mT (by omega) (by omega) (by omega)
    rw [decodePayload, hra]
  · have hra : readAcc ((payloadBits cfg.cols m).take mT) 16 0 0
        = Except.ok (bitsToNat ((payloadBits cfg.cols m).take 16), 16) := by
      rw [readAcc_spec _ 16 0 0 (by rw [List.length_take]; omega)]
      rw [List.drop_zero, take_take_self _ 16 mT (by omega)]
      simp
    have hst := decSyms_trunc (payloadBits cfg.cols m) cfg.cols cfg.bound m.length
      ⟨0, 65535, bitsToNat ((payloadBits cfg.cols m).take 16), 16⟩ tab0 [] m dF tF mT hsyms
      (by dsimp only; omega) (by omega)
    rw [decodePayload, hra]
    dsimp only
    rw [← hlen, hst]

/-! ## Lemmas: a non-terminating decomposition is rejected -/

theorem decUn_corrupt (S : List Bool) (base : Nat) : ∀ (bound j : Nat) (d : DecSt) (tab : Tab),
    allOnes S base j (bound + 1) d tab = true →
    decUn S base j bound d tab = Except.error Err.CorruptStream := by
  intro bound
  induction bound with
  | zero =>
    intro j d tab h
    rw [allOnes] at h
    cases hdb : decodeBit S d (tab (ctxMag base j)) with
    | error e => rw [hdb] at h; exact absurd h (by simp)
    | ok bd =>
      obtain ⟨b, d'⟩ := bd
      rw [hdb] at h
      dsimp only at h
      cases b with
      | false => rw [if_neg (by simp)] at h; exact absurd h (by simp)
      | true =>
        rw [decUn, hdb]
        simp
  | succ a ih =>
    intro j d tab h
    rw [allOnes] at h
    cases hdb : decodeBit S d (tab (ctxMag base j)) with
    | error e => rw [hdb] at h; exact absurd h (by simp)
    | ok bd =>
      obtain ⟨b, d'⟩ := bd
      rw [hdb] at h
      dsimp only at h
      cases b with
      | false => rw [if_neg (by simp)] at h; exact absurd h (by simp)
      | true =>
        rw [if_pos rfl] at h
        rw [decUn, hdb]
        dsimp only
        rw [if_pos rfl, ih (j + 1) d' _ h]

/-! ## Lemmas: decoder interval invariant -/

theorem decStep_fields (S : List Bool) (d d' : DecSt) (h : decStep S d = Except.ok d')
    (hv : d.low ≤ d.val ∧ d.val ≤ d.high ∧ d.high < WTOP) :
    (renormDone d.low d.high ∧ d' = d) ∨
    (¬ renormDone d.low d.high ∧
      (d'.low ≤ d'.val ∧ d'.val ≤ d'.high ∧ d'.high < WTOP) ∧
      d'.high - d'.low + 1 = 2 * (d.high - d.low + 1)) := by
  obtain ⟨hv1, hv2, hv3⟩ := hv
  simp only [WTOP] at hv3 ⊢
  by_cases c1 : d.high < HALFW
  · right
    rw [decStep, if_pos c1] at h
    cases hr : readBit S d.pos with
    | error e => rw [hr] at h; exact absurd h (by simp)
    | ok b =>
      rw [hr] at h
      dsimp only at h
      injection h with h2
      subst h2
      have hb : b.toNat ≤ 1 := Bool.toNat_le b
      simp only [HALFW] at c1
      exact ⟨fun hd => hd.1 (by simpa [HALFW] using c1), ⟨by first | (dsimp only; omega) | omega,
        by first | (dsimp only; omega) | omega, by first | (dsimp only; omega) | omega⟩, by first | (dsimp only; omega) | omega⟩
  by_cases c2 : HALFW ≤ d.low
  · right
    rw [decStep, if_neg c1, if_pos c2] at h
    cases hr : readBit S d.pos with
    | error e => rw [hr] at h; exact absurd h (by simp)
    | ok b =>
      rw [hr] at h
      dsimp only at h
      injection h with h2
      subst h2
      have hb : b.toNat ≤ 1 := Bool.toNat_le b
      simp only [HALFW] at c2
      simp only [WTOP]
      exact ⟨fun hd => hd.2.1 (by simpa [HALFW] using c2), ⟨by first | (dsimp only; omega) | omega,
        by first | (dsimp only; omega) | omega, by first | (dsimp only; omega) | omega⟩, by first | (dsimp only; omega) | omega⟩
  by_cases c3 : QTRW ≤ d.low ∧ d.high < 3 * QTRW
  · right
    rw [decStep, if_neg c1, if_neg c2, if_pos c3] at h
    cases hr : readBit S d.pos with
    | error e => rw [hr] at h; exact absurd h (by simp)
    | ok b =>
      rw [hr] at h
      dsimp only at h
      injection h with h2
      subst h2
      have hb : b.toNat ≤ 1 := Bool.toNat_le b
      obtain ⟨c3a, c3b⟩ := c3
      simp only [QTRW] at c3a c3b
      simp only [HALFW]
      exact ⟨fun hd => hd.2.2 ⟨by simp only [QTRW]; omega, by simp only [QTRW]; omega⟩,
        ⟨by first | (dsimp only; omega) | omega, by first | (dsimp only; omega) | omega, by first | (dsimp only; omega) | omega⟩, by first | (dsimp only; omega) | omega⟩
  · left
    rw [decStep, if_neg c1, if_neg c2, if_neg c3] at h
    exact ⟨⟨c1, c2, c3⟩, by injection h.symm⟩

theorem decIter_fields (S : List Bool) : ∀ (n : Nat) (d d' : DecSt),
    decIter S n d = Except.ok d' →
    (d.low ≤ d.val ∧ d.val ≤ d.high ∧ d.high < WTOP) →
    (d'.low ≤ d'.val ∧ d'.val ≤ d'.high ∧ d'.high < WTOP) ∧
    (renormDone d'.low d'.high ∨
      d'.high - d'.low + 1 = 2 ^ n * (d.high - d.low + 1)) := by
  intro n
  induction n with
  | zero =>
    intro d d' h hv
    rw [decIter] at h
    injection h with h'
    subst h'
    exact ⟨hv, Or.inr (by simp)⟩
  | succ k ih =>
    intro d d' h hv
    rw [decIter] at h
    cases hs : decStep S d with
    | error e => rw [hs] at h; exact absurd h (by simp)
    | ok d1 =>
      rw [hs] at h
      dsimp only at h
      rcases decStep_fields S d d1 hs hv with ⟨hdone, hd⟩ | ⟨_, hv1, hw1⟩
      · subst hd
        obtain ⟨hva, hser⟩ := ih d1 d' h hv
        refine ⟨hva, ?_⟩
        rcases hser with hdone' | hwid
        · exact Or.inl hdone'
        · have hiter : ∀ j, decIter S j d1 = Except.ok d1 := by
            intro j
            induction j with
            | zero => rfl
            | succ i ihj =>
              rw [decIter]
              have hid : decStep S d1 = Except.ok d1 := by
                obtain ⟨a, b, c⟩ := hdone
                rw [decStep, if_neg a, if_neg b, if_neg c]
              rw [hid]
              exact ihj
          have hdd : d' = d1 := by
            have h2 := hiter k
            rw [h2] at h
            injection h with h3
            exact h3.symm
          subst hdd
          exact Or.inl hdone
      · obtain ⟨hva, hser⟩ := ih d1 d' h hv1
        refine ⟨hva, ?_⟩
        rcases hser with hdone' | hwid
        · exact Or.inl hdone'
        · exact Or.inr (by rw [hwid, hw1, pow_succ]; ring)

theorem decodeBit_inv (S : List Bool) (d : DecSt) (p : Nat) (b : Bool) (d' : DecSt)
    (h1 : 1 ≤ p) (h2 : p ≤ PDEN - 1) (hv : DecInv d)
    (h : decodeBit S d p = Except.ok (b, d')) : DecInv d' := by
  obtain ⟨hva, hvb, hvc, hvw⟩ := hv
  have hk1 : 1 ≤ cut d.low d.high p := cut_pos d.low d.high p hvw h1
  have hk2 : cut d.low d.high p ≤ d.high - d.low := cut_le d.low d.high p (by first | (dsimp only; omega) | omega) h2
  rw [decodeBit] at h
  have hfin : ∀ d1 : DecSt, decIter S 16 d1 = Except.ok d' →
      d1.low ≤ d1.val → d1.val ≤ d1.high → d1.high < WTOP → d1.low ≤ d1.high → DecInv d' := by
    intro d1 hiter ha hb' hc' hd'
    obtain ⟨⟨ra, rb, rc⟩, rser⟩ := decIter_fields S 16 d1 d' hiter ⟨ha, hb', hc'⟩
    rcases rser with hdone | hwid
    · exact ⟨ra, rb, rc, done_width _ _ hdone (by first | (dsimp only; omega) | omega)⟩
    · refine ⟨ra, rb, rc, ?_⟩
      have hw1 : 1 ≤ d1.high - d1.low + 1 := by omega
      have hw2 : (2:Nat) ^ 16 * 1 ≤ 2 ^ 16 * (d1.high - d1.low + 1) := Nat.mul_le_mul_left _ hw1
      rw [← hwid] at hw2
      simp only [QTRW]
      norm_num at hw2
      omega
  by_cases hc : d.val ≤ d.low + cut d.low d.high p - 1
  · rw [if_pos hc] at h
    cases hi : decIter S 16 { d with high := d.low + cut d.low d.high p - 1 } with
    | error e => rw [hi] at h; exact absurd h (by simp)
    | ok d2 =>
      rw [hi] at h
      dsimp only at h
      injection h with h3
      injection h3 with hbv hdv
      subst hdv
      exact hfin _ hi (by first | (dsimp only; omega) | omega) (by first | (dsimp only; omega) | omega)
        (by simp only [WTOP] at hvc ⊢; omega) (by first | (dsimp only; omega) | omega)
  · rw [if_neg hc] at h
    cases hi : decIter S 16 { d with low := d.low + cut d.low d.high p } with
    | error e => rw [hi] at h; exact absurd h (by simp)
    | ok d2 =>
      rw [hi] at h
      dsimp only at h
      injection h with h3
      injection h3 with hbv hdv
      subst hdv
      exact hfin _ hi (by first | (dsimp only; omega) | omega) (by first | (dsimp only; omega) | omega)
        (by exact hvc) (by first | (dsimp only; omega) | omega)

/-! ## Lemmas: the bit buffer and the sign-magnitude decoder -/

theorem foldl_writeBit (S : List Bool) : ∀ acc, List.foldl writeBit acc S = acc ++ S := by
  induction S with
  | nil => intro acc; simp
  | cons b t ih =>
    intro acc
    rw [List.foldl_cons, ih]
    simp [writeBit]

theorem decSym_corrupt (S : List Bool) (base bound : Nat) (d : DecSt) (tab : Tab)
    (h : allOnes S base 0 (bound + 1) d tab = true) :
    decSym S base bound d tab = Except.error Err.CorruptStream := by
  rw [decSym, decUn_corrupt S base bound 0 d tab h]

/-! ## Lemmas: the BSDS builder -/

theorem bsdsSlice_shape (g : Img) (hg : goodShape g = true) :
    (bsdsSlice g).rows = 320 ∧ (bsdsSlice g).cols = 480 ∧
      ∀ r c, (bsdsSlice g).px r c < 256 := by
  rw [goodShape, decide_eq_true_eq] at hg
  rcases hg with ⟨h1, h2⟩ | ⟨h1, h2⟩
  · rw [bsdsSlice, if_pos ⟨h1, h2⟩]
    refine ⟨by simp [toU8, cropTL, h1, h2], by simp [toU8, cropTL, h1, h2],
      fun r c => by simp only [toU8]; exact Nat.mod_lt _ (by omega)⟩
  · rw [bsdsSlice, if_neg (by omega)]
    refine ⟨by simp [toU8, rot90, cropTL, h1, h2], by simp [toU8, rot90, cropTL, h1, h2],
      fun r c => by simp only [toU8]; exact Nat.mod_lt _ (by omega)⟩

theorem rotIdx_mem (env : BsdsEnv) : ∀ (names : List Nat) (i k : Nat),
    k ∈ rotIdx env names i ↔
      ∃ t, t < names.length ∧ k = i + t ∧
        sideways (env.lum (names.getD t 0)) = true := by
  intro names
  induction names with
  | nil => intro i k; simp [rotIdx]
  | cons n rest ih =>
    intro i k
    by_cases hs : sideways (env.lum n) = true
    · rw [rotIdx, if_pos hs]
      constructor
      · intro hm
        rcases List.mem_cons.mp hm with he | ht
        · exact ⟨0, by simp, by omega, by simpa using hs⟩
        · obtain ⟨t, h1, h2, h3⟩ := (ih (i + 1) k).mp ht
          exact ⟨t + 1, by simp only [List.length_cons]; omega, by omega, by simpa using h3⟩
      · rintro ⟨t, h1, h2, h3⟩
        cases t with
        | zero =>
          subst h2
          simp
        | succ u =>
          refine List.mem_cons.mpr (Or.inr ((ih (i + 1) k).mpr
            ⟨u, by simp only [List.length_cons] at h1; omega, by omega, by simpa using h3⟩))
    · rw [rotIdx, if_neg hs]
      constructor
      · intro hm
        obtain ⟨t, h1, h2, h3⟩ := (ih (i + 1) k).mp hm
        exact ⟨t + 1, by simp only [List.length_cons]; omega, by omega, by simpa using h3⟩
      · rintro ⟨t, h1, h2, h3⟩
        cases t with
        | zero => exact absurd (by simpa using h3) hs
        | succ u =>
          exact (ih (i + 1) k).mpr
            ⟨u, by simp only [List.length_cons] at h1; omega, by omega, by simpa using h3⟩

theorem bsdsLoop_ok (env : BsdsEnv) : ∀ (names : List Nat) (i : Nat)
    (imgs : List Img) (rots reads : List Nat),
    (∀ n ∈ names, goodShape (env.lum n) = true) →
    bsdsLoop env names i imgs rots reads =
      ⟨reads ++ names, some (imgs ++ names.map (fun n => bsdsSlice (env.lum n))),
       some (rots ++ rotIdx env names i), none⟩ := by
  intro names
  induction names with
  | nil =>
    intro i imgs rots reads _
    rw [bsdsLoop, rotIdx]
    simp
  | cons n rest ih =>
    intro i imgs rots reads hall
    have hg := hall n (List.mem_cons_self n rest)
    have hrest : ∀ x ∈ rest, goodShape (env.lum x) = true :=
      fun x hx => hall x (List.mem_cons_of_mem n hx)
    rw [goodShape, decide_eq_true_eq] at hg
    rcases hg with ⟨h1, h2⟩ | ⟨h1, h2⟩
    · have hsw : sideways (env.lum n) = false := by
        rw [sideways, decide_eq_false_iff_not]
        omega
      have hsl : bsdsSlice (env.lum n) = toU8 (cropTL (env.lum n)) := by
        rw [bsdsSlice, if_pos ⟨h1, h2⟩]
      rw [bsdsLoop, if_pos ⟨h1, h2⟩, ih (i + 1) _ _ _ hrest, rotIdx, hsw]
      simp [hsl]
    · have hsw : sideways (env.lum n) = true := by
        rw [sideways, decide_eq_true_eq]
        exact ⟨h1, h2⟩
      have hsl : bsdsSlice (env.lum n) = toU8 (rot90 (cropTL (env.lum n))) := by
        rw [bsdsSlice, if_neg (by omega)]
      rw [bsdsLoop, if_neg (by omega), if_pos ⟨h1, h2⟩, ih (i + 1) _ _ _ hrest, rotIdx, hsw]
      simp [hsl]

theorem bsdsLoop_bad (env : BsdsEnv) : ∀ (names : List Nat) (i : Nat)
    (imgs : List Img) (rots reads : List Nat),
    (∃ n ∈ names, goodShape (env.lum n) = false) →
    (bsdsLoop env names i imgs rots reads).savedSet = none ∧
    (bsdsLoop env names i imgs rots reads).savedRot = none ∧
    (bsdsLoop env names i imgs rots reads).err = some PyErr.valueError := by
  intro names
  induction names with
  | nil =>
    intro i imgs rots reads hex
    simp at hex
  | cons n rest ih =>
    intro i imgs rots reads hex
    by_cases hn : goodShape (env.lum n) = true
    · have hrest : ∃ x ∈ rest, goodShape (env.lum x) = false := by
        obtain ⟨x, hx, hgx⟩ := hex
        rcases List.mem_cons.mp hx with he | ht
        · rw [he, hn] at hgx
          exact absurd hgx (by simp)
        · exact ⟨x, ht, hgx⟩
      rw [goodShape, decide_eq_true_eq] at hn
      rcases hn with ⟨h1, h2⟩ | ⟨h1, h2⟩
      · rw [bsdsLoop, if_pos ⟨h1, h2⟩]
        exact ih _ _ _ _ hrest
      · rw [bsdsLoop, if_neg (by omega), if_pos ⟨h1, h2⟩]
        exact ih _ _ _ _ hrest
    · have hn' : goodShape (env.lum n) = false := by
        cases hgs : goodShape (env.lum n) with
        | false => rfl
        | true => exact absurd hgs hn
      rw [goodShape, decide_eq_false_iff_not, not_or] at hn'
      obtain ⟨ha, hb⟩ := hn'
      rw [bsdsLoop, if_neg ha, if_neg hb]
      exact ⟨rfl, rfl, rfl⟩

/-! ## Lemmas: the ImageNet builder -/

theorem inetLoop_main (env : InetEnv) (nbT nbTot : Nat) : ∀ (names : List Nat)
    (acc : List Img) (reads : List Nat), acc.length < nbTot →
    (inetLoop env nbT nbTot names acc reads).1 =
      (acc ++ succList env nbT names acc.length).take nbTot ∧
    (inetLoop env nbT nbTot names acc reads).2.2 = none := by
  intro names
  induction names with
  | nil =>
    intro acc reads hlt
    rw [inetLoop, succList]
    exact ⟨by rw [List.append_nil, List.take_of_length_le (by omega)], rfl⟩
  | cons n rest ih =>
    intro acc reads hlt
    rw [inetLoop, succList]
    cases hp : env.proc n (decide (acc.length < nbT)) with
    | none =>
      dsimp only
      exact ih acc (reads ++ [n]) hlt
    | some g =>
      dsimp only
      rw [if_pos hlt]
      by_cases hfull : acc.length + 1 = nbTot
      · rw [if_pos hfull]
        refine ⟨?_, rfl⟩
        have hre : acc ++ g :: succList env nbT rest (acc.length + 1)
            = (acc ++ [g]) ++ succList env nbT rest (acc.length + 1) := by simp
        have hlen1 : (acc ++ [g]).length = nbTot := by
          simp only [List.length_append, List.length_cons, List.length_nil]
          omega
        rw [hre, ← hlen1, List.take_left]
      · rw [if_neg hfull]
        have hlt' : (acc ++ [g]).length < nbTot := by
          simp only [List.length_append, List.length_cons, List.length_nil]
          omega
        obtain ⟨ha, hb⟩ := ih (acc ++ [g]) (reads ++ [n]) hlt'
        refine ⟨?_, hb⟩
        rw [ha]
        have hlen1 : (acc ++ [g]).length = acc.length + 1 := by
          simp
        rw [hlen1, List.append_assoc]
        simp

theorem inetLoop_zero (env : InetEnv) (nbT : Nat) : ∀ (names reads : List Nat),
    (inetLoop env nbT 0 names [] reads).1 = [] ∧
    (inetLoop env nbT 0 names [] reads).2.2 =
      (if (succList env nbT names 0).isEmpty then none else some PyErr.indexError) := by
  intro names
  induction names with
  | nil =>
    intro reads
    rw [inetLoop, succList]
    exact ⟨rfl, by simp⟩
  | cons n rest ih =>
    intro reads
    rw [inetLoop, succList]
    simp only [List.length_nil]
    cases hp : env.proc n (decide (0 < nbT)) with
    | none =>
      dsimp only
      exact ih (reads ++ [n])
    | some g =>
      dsimp only
      rw [if_neg (by simp)]
      exact ⟨rfl, by rw [if_neg (by simp)]⟩

theorem create_imagenet_cases (env : InetEnv) (nbT nbV : Nat)
    (hne : ¬(env.trainExists = true ∧ env.validExists = true)) :
    (∃ e, (inetLoop env nbT (nbT + nbV) env.names [] []).2.2 = some e ∧
      create_imagenet env nbT nbV =
        ⟨(inetLoop env nbT (nbT + nbV) env.names [] []).2.1, none, none, some e⟩) ∨
    ((inetLoop env nbT (nbT + nbV) env.names [] []).2.2 = none ∧
      ((inetLoop env nbT (nbT + nbV) env.names [] []).1.length ≠ nbT + nbV ∧
        create_imagenet env nbT nbV =
          ⟨(inetLoop env nbT (nbT + nbV) env.names [] []).2.1, none, none,
            some PyErr.runtimeError⟩ ∨
       ((inetLoop env nbT (nbT + nbV) env.names [] []).1.length = nbT + nbV ∧
        create_imagenet env nbT nbV =
          ⟨(inetLoop env nbT (nbT + nbV) env.names [] []).2.1,
            some ((inetLoop env nbT (nbT + nbV) env.names [] []).1.take nbT),
            some ((inetLoop env nbT (nbT + nbV) env.names [] []).1.drop nbT),
            none⟩))) := by
  rw [create_imagenet, if_neg hne]
  dsimp only
  cases hl : (inetLoop env nbT (nbT + nbV) env.names [] []).2.2 with
  | some e =>
    dsimp only
    exact Or.inl ⟨e, rfl, rfl⟩
  | none =>
    dsimp only
    by_cases hlen : (inetLoop env nbT (nbT + nbV) env.names [] []).1.length ≠ nbT + nbV
    · rw [if_pos hlen]
      exact Or.inr ⟨rfl, Or.inl ⟨hlen, rfl⟩⟩
    · rw [if_neg hlen]
      exact Or.inr ⟨rfl, Or.inr ⟨by omega, rfl⟩⟩

/-- Claim C8: both dataset builders are no-ops when their two output files
already exist — `create_bsds` and `create_imagenet` read no image, write no
file and raise nothing. -/
theorem claim_C8 (env1 : BsdsEnv) (env2 : InetEnv) (nbT nbV : Nat)
    (h1 : env1.bsdsExists = true ∧ env1.rotExists = true)
    (h2 : env2.trainExists = true ∧ env2.validExists = true) :
    create_bsds env1 = ⟨[], none, none, none⟩ ∧
    create_imagenet env2 nbT nbV = ⟨[], none, none, none⟩ := by
  constructor
  · rw [create_bsds, if_pos h1]
  · rw [create_imagenet, if_pos h2]

/-- Claim C9: when `create_bsds` actually builds the set, it raises
`RuntimeError` exactly when the sorted listing does not hold 100 names;
given 100 names it raises `ValueError` exactly when some image has an
unsupported shape, and otherwise saves the 100 uint8 luminance slices of
shape 320x480 — each the i-th image with first row and column removed,
rotated when sideways — together with exactly the sideways indices. -/
theorem claim_C9 (env : BsdsEnv)
    (hne : ¬(env.bsdsExists = true ∧ env.rotExists = true)) : C9Post env := by
  rw [C9Post]
  by_cases hlen : env.names.length = 100
  · have hcb : create_bsds env = bsdsLoop env env.names 0 [] [] [] := by
      rw [create_bsds, if_neg hne, if_neg (by omega)]
    by_cases hall : ∀ n ∈ env.names, goodShape (env.lum n) = true
    · have hok := bsdsLoop_ok env env.names 0 [] [] [] hall
      rw [hcb, hok]
      refine ⟨by simp [hlen], fun _ => ⟨?_, fun _ => ⟨by simp, by simp, by simp, rfl, ?_, ?_⟩⟩⟩
      · exact iff_of_false (by simp) (not_not_intro hall)
      · intro g hg
        obtain ⟨n, hn, rfl⟩ := List.mem_map.mp hg
        exact bsdsSlice_shape _ (hall n hn)
      · intro k
        rw [rotIdx_mem env env.names 0 k]
        constructor
        · rintro ⟨t, ht1, ht2, ht3⟩
          have htk : t = k := by omega
          subst htk
          exact ⟨by omega, ht3⟩
        · rintro ⟨hk1, hk2⟩
          exact ⟨k, by omega, by omega, hk2⟩
    · have hex : ∃ n ∈ env.names, goodShape (env.lum n) = false := by
        push_neg at hall
        obtain ⟨n, hn, hgn⟩ := hall
        exact ⟨n, hn, by simpa using hgn⟩
      obtain ⟨hs1, hs2, hs3⟩ := bsdsLoop_bad env env.names 0 [] [] [] hex
      rw [hcb]
      refine ⟨?_, fun _ => ⟨?_, fun hall2 => absurd hall2 hall⟩⟩
      · rw [hs3]
        exact iff_of_false (by simp) (by omega)
      · rw [hs3]
        exact iff_of_true rfl hall
  · have hcb : create_bsds env = ⟨[], none, none, some PyErr.runtimeError⟩ := by
      rw [create_bsds, if_neg hne, if_pos hlen]
    rw [hcb]
    exact ⟨iff_of_true rfl hlen, fun h100 => absurd h100 hlen⟩

/-- Claim C10: when `create_imagenet` actually builds the sets, it raises
`RuntimeError` exactly when the sorted listing yields fewer successful
crops than `nbT + nbV` — writing nothing in that case — and on success
writes the first `nbT` successful crops to the training file and the next
`nbV` to the validation file, a partition with no crop in both. -/
theorem claim_C10 (env : InetEnv) (nbT nbV : Nat)
    (hne : ¬(env.trainExists = true ∧ env.validExists = true)) : C10Post env nbT nbV := by
  rw [C10Post]
  rcases create_imagenet_cases env nbT nbV hne with ⟨e, hsome, hrec⟩ | ⟨hnone, hrest⟩
  · by_cases h0 : nbT + nbV = 0
    · rw [h0] at hsome hrec
      obtain ⟨hz1, hz2⟩ := inetLoop_zero env nbT env.names []
      rw [hz2] at hsome
      by_cases hnil : (succList env nbT env.names 0).isEmpty
      · rw [if_pos hnil] at hsome
        exact absurd hsome (by simp)
      · rw [if_neg hnil] at hsome
        injection hsome with he
        subst he
        refine ⟨iff_of_false (by rw [hrec]; simp) (by omega), ?_, ?_⟩
        · intro h
          rw [hrec] at h
          simp at h
        · intro h
          rw [hrec] at h
          simp at h
    · obtain ⟨hm1, hm2⟩ := inetLoop_main env nbT (nbT + nbV) env.names [] []
        (by simp only [List.length_nil]; omega)
      rw [hm2] at hsome
      exact absurd hsome (by simp)
  · by_cases h0 : nbT + nbV = 0
    · obtain ⟨hT, hV⟩ : nbT = 0 ∧ nbV = 0 := by omega
      subst hT
      subst hV
      obtain ⟨hz1, hz2⟩ := inetLoop_zero env 0 env.names []
      have hz1' := hz1
      rcases hrest with ⟨hlen, hrec⟩ | ⟨hlen, hrec⟩
      · rw [hz1] at hlen
        simp at hlen
      · have hLnil : succList env 0 env.names 0 = [] := by
          rw [hz2] at hnone
          by_cases hnil : (succList env 0 env.names 0).isEmpty
          · exact List.isEmpty_iff.mp hnil
          · rw [if_neg hnil] at hnone
            exact absurd hnone (by simp)
        refine ⟨iff_of_false (by rw [hrec]; simp) (by omega), ?_, ?_⟩
        · intro h
          rw [hrec] at h
          simp at h
        · intro _
          rw [hrec, hz1, hLnil]
          simp
    · obtain ⟨hm1, hm2⟩ := inetLoop_main env nbT (nbT + nbV) env.names [] []
        (by simp only [List.length_nil]; omega)
      have hr1 : (inetLoop env nbT (nbT + nbV) env.names [] []).1
          = (succList env nbT env.names 0).take (nbT + nbV) := by
        rw [hm1]
        simp
      rcases hrest with ⟨hlen, hrec⟩ | ⟨hlen, hrec⟩
      · rw [hr1, List.length_take] at hlen
        have hshort : (succList env nbT env.names 0).length < nbT + nbV := by omega
        refine ⟨iff_of_true (by rw [hrec]) hshort, ?_, ?_⟩
        · intro _
          exact ⟨by rw [hrec], by rw [hrec]⟩
        · intro h
          rw [hrec] at h
          simp at h
      · rw [hr1, List.length_take] at hlen
        have hLge : nbT + nbV ≤ (succList env nbT env.names 0).length := by omega
        refine ⟨iff_of_false (by rw [hrec]; simp) (by omega), ?_, ?_⟩
        · intro h
          rw [hrec] at h
          simp at h
        · intro _
          refine ⟨?_, ?_, ?_, ?_, ?_⟩
          · rw [hrec, hr1]
            dsimp only
            rw [List.take_take, min_eq_left (Nat.le_add_right nbT nbV)]
          · rw [hrec, hr1]
          · simp only [List.length_take]
            omega
          · simp only [List.length_drop, List.length_take]
            omega
          · have he : List.take nbT (succList env nbT env.names 0)
                = List.take nbT (List.take (nbT + nbV) (succList env nbT env.names 0)) := by
              rw [List.take_take, min_eq_left (Nat.le_add_right nbT nbV)]
            rw [he]
            exact List.take_append_drop nbT _

/-! ## The claims about the compression stack -/

/-- Claim C1: round-trip — for every integer grid whose symbols lie within
the declared alphabet bound and whose shape is supported, decoding the
encoding with the same configuration returns the original grid exactly. -/
theorem claim_C1 (cfg : Cfg) (m : List Int) (hc : cfgOk cfg = true)
    (hlen : m.length = cfg.rows * cfg.cols)
    (hbnd : ∀ x ∈ m, x.natAbs ≤ cfg.bound) :
    ∃ bs, encode cfg m = Except.ok bs ∧ decode cfg bs = Except.ok m :=
  ⟨headerBytes cfg ++ bitsToBytes (payloadBits cfg.cols m),
    encode_eq_ok cfg m hc hlen hbnd, decode_of_valid cfg m hc hlen hbnd⟩

/-- Claim C2: encoding is deterministic — two runs of `encode` on the same
map with the same configuration produce byte-identical output buffers. -/
theorem claim_C2 (cfg : Cfg) (m : List Int) (b1 b2 : List Nat)
    (h1 : encode cfg m = Except.ok b1) (h2 : encode cfg m = Except.ok b2) :
    b1 = b2 := by
  rw [h1] at h2
  injection h2

/-- Claim C3: an input symbol beyond the declared alphabet bound makes
`encode` fail with `AlphabetViolation`; a bit sequence whose symbol
decomposition does not terminate within the declared bound makes the symbol
decoder fail with `CorruptStream`. -/
theorem claim_C3 (cfg : Cfg) (m : List Int) (S : List Bool) (base bound : Nat)
    (d : DecSt) (tab : Tab) (hc : cfgOk cfg = true)
    (hlen : m.length = cfg.rows * cfg.cols)
    (hbad : ¬ ∀ x ∈ m, x.natAbs ≤ cfg.bound)
    (hones : allOnes S base 0 (bound + 1) d tab = true) :
    encode cfg m = Except.error Err.AlphabetViolation ∧
    decSym S base bound d tab = Except.error Err.CorruptStream := by
  constructor
  · rw [encode, if_neg (by simp [hc]), if_neg (by simp [hlen])]
    rw [if_pos ?hcond]
    case hcond =>
      intro hall
      apply hbad
      rw [List.all_eq_true] at hall
      intro x hx
      simpa using hall x hx
  · exact decSym_corrupt S base bound d tab hones

/-- Claim C4: the bit buffer reader returns bits in exactly the order they
were written, and fails with `ExhaustedInput` if and only if no bits remain
to be read. -/
theorem claim_C4 (S : List Bool) (pos : Nat) :
    List.foldl writeBit [] S = S ∧
    (pos < S.length → readBit S pos = Except.ok (S.getD pos false)) ∧
    (readBit S pos = Except.error Err.ExhaustedInput ↔ S.length ≤ pos) := by
  refine ⟨by simpa using foldl_writeBit S [], fun h => ?_, ?_⟩
  · exact (readBit_ok S pos (S.getD pos false)).mpr ⟨h, rfl⟩
  · rw [readBit_err_iff]
    simp

/-- Claim C5: the coder intervals stay valid — after every `encodeBit` the
encoder state keeps `low ≤ high` within the register range with width above
the renormalization threshold, and likewise for the decoder state after
every successful `decodeBit`; each renormalization scaling of a not-yet
-normalized interval emits exactly one bit on the encoder side and consumes
exactly one bit on the decoder side. -/
theorem claim_C5 (s : EncSt) (b : Bool) (p : Nat) (S : List Bool)
    (d d' e e' : DecSt) (b' : Bool) :
    (EncInv s → 1 ≤ p → p ≤ PDEN - 1 → EncInv (encodeBit s b p)) ∧
    (DecInv d → 1 ≤ p → p ≤ PDEN - 1 →
      decodeBit S d p = Except.ok (b', d') → DecInv d') ∧
    (LH s → ¬ renormDone s.low s.high → dS (encStep s) = dS s + 1) ∧
    (decStep S e = Except.ok e' → ¬ renormDone e.low e.high →
      e'.pos = e.pos + 1) := by
  refine ⟨fun hs h1 h2 => encodeBit_inv s b p hs h1 h2,
    fun hv h1 h2 h => decodeBit_inv S d p b' d' h1 h2 hv h,
    fun hlh hnd => ?_, fun h hnd => ?_⟩
  · rcases encStep_main s hlh with ⟨hdone, _⟩ | ⟨_, _, hd, _, _⟩
    · exact absurd hdone hnd
    · exact hd
  · rcases decStep_shape S e e' h with ⟨hdone, _⟩ | ⟨_, hp, _, _⟩
    · exact absurd hdone hnd
    · exact hp

/-- Claim C6: decoding a valid encoded buffer truncated by one byte fails
with `ExhaustedInput` or `CorruptStream`; it never returns successfully. -/
theorem claim_C6 (cfg : Cfg) (m : List Int) (bs : List Nat)
    (hc : cfgOk cfg = true) (hlen : m.length = cfg.rows * cfg.cols)
    (hbnd : ∀ x ∈ m, x.natAbs ≤ cfg.bound)
    (henc : encode cfg m = Except.ok bs) :
    (decode cfg bs.dropLast = Except.error Err.ExhaustedInput ∨
     decode cfg bs.dropLast = Except.error Err.CorruptStream) ∧
    ∀ m', decode cfg bs.dropLast ≠ Except.ok m' := by
  have he := encode_eq_ok cfg m hc hlen hbnd
  rw [he] at henc
  injection henc with hb
  subst hb
  have hd := decode_truncated cfg m hc hlen hbnd
  refine ⟨Or.inl hd, fun m' hm' => ?_⟩
  rw [hd] at hm'
  exact absurd hm' (by simp)

/-- Claim C7: `decode` fails with `MalformedHeader` exactly when the header
is unreadable or inconsistent, independently of the payload bytes, and a
header it accepts parses to positive dimensions, a bound in the supported
range, and the supplied configuration. -/
theorem claim_C7 (cfg : Cfg) (bs hd pl : List Nat) (h5 : hd.length = 5) :
    (decode cfg bs = Except.error Err.MalformedHeader ↔ hdrBad cfg bs = true) ∧
    (decode cfg (hd ++ pl) = Except.error Err.MalformedHeader ↔
      hdrBad cfg hd = true) ∧
    (hdrBad cfg bs = false →
      1 ≤ (parseHdr bs).1 ∧ 1 ≤ (parseHdr bs).2.1 ∧ 1 ≤ (parseHdr bs).2.2 ∧
      (parseHdr bs).2.2 ≤ 255 ∧ (parseHdr bs).1 = cfg.rows ∧
      (parseHdr bs).2.1 = cfg.cols ∧ (parseHdr bs).2.2 = cfg.bound) := by
  have key : ∀ B : List Nat,
      decode cfg B = Except.error Err.MalformedHeader ↔ hdrBad cfg B = true := by
    intro B
    constructor
    · intro h
      by_cases hb : hdrBad cfg B = true
      · exact hb
      · exfalso
        rw [decode, if_neg (by simp [hb])] at h
        rcases decodePayload_err _ _ _ _ _ h with h' | h'
        · exact Err.noConfusion h'
        · exact Err.noConfusion h'
    · intro hb
      rw [decode, if_pos hb]
  refine ⟨key bs, ?_, ?_⟩
  · rw [key (hd ++ pl),
      hdrBad_take5 cfg (hd ++ pl) hd (List.take_append_of_le_length (by omega))]
  · intro hb
    rw [hdrBad, Bool.or_eq_false_iff] at hb
    obtain ⟨hb1, hb2⟩ := hb
    rw [Bool.not_eq_false', decide_eq_true_eq] at hb2
    exact hb2

/-! ## Concrete instances of the claims -/

theorem claim_C1_wit :
    cfgOk ⟨1, 2, 2⟩ = true ∧
    ([(1 : Int), -2].length = (⟨1, 2, 2⟩ : Cfg).rows * (⟨1, 2, 2⟩ : Cfg).cols) ∧
    (∀ x ∈ [(1 : Int), -2], x.natAbs ≤ (⟨1, 2, 2⟩ : Cfg).bound) ∧
    ∃ bs, encode ⟨1, 2, 2⟩ [1, -2] = Except.ok bs ∧
      decode ⟨1, 2, 2⟩ bs = Except.ok [1, -2] :=
  ⟨by decide, by decide, by decide,
    claim_C1 ⟨1, 2, 2⟩ [1, -2] (by decide) (by decide) (by decide)⟩

theorem claim_C2_wit :
    encode ⟨1, 1, 1⟩ [0] = Except.ok (headerBytes ⟨1, 1, 1⟩ ++
      bitsToBytes (payloadBits (⟨1, 1, 1⟩ : Cfg).cols [0])) ∧
    headerBytes ⟨1, 1, 1⟩ ++ bitsToBytes (payloadBits (⟨1, 1, 1⟩ : Cfg).cols [0]) =
      headerBytes ⟨1, 1, 1⟩ ++ bitsToBytes (payloadBits (⟨1, 1, 1⟩ : Cfg).cols [0]) :=
  have he : encode ⟨1, 1, 1⟩ [0] = Except.ok (headerBytes ⟨1, 1, 1⟩ ++
      bitsToBytes (payloadBits (⟨1, 1, 1⟩ : Cfg).cols [0])) :=
    encode_eq_ok ⟨1, 1, 1⟩ [0] (by decide) (by decide) (by decide)
  ⟨he, claim_C2 ⟨1, 1, 1⟩ [0] _ _ he he⟩

theorem claim_C3_wit :
    cfgOk ⟨1, 1, 2⟩ = true ∧
    ([(5 : Int)].length = (⟨1, 1, 2⟩ : Cfg).rows * (⟨1, 1, 2⟩ : Cfg).cols) ∧
    (¬ ∀ x ∈ [(5 : Int)], x.natAbs ≤ (⟨1, 1, 2⟩ : Cfg).bound) ∧
    allOnes (List.replicate 64 false) 0 0 (2 + 1) ⟨0, 65535, 0, 16⟩ tab0 = true ∧
    encode ⟨1, 1, 2⟩ [5] = Except.error Err.AlphabetViolation ∧
    decSym (List.replicate 64 false) 0 2 ⟨0, 65535, 0, 16⟩ tab0 =
      Except.error Err.CorruptStream :=
  ⟨by decide, by decide, by decide, by decide,
    (claim_C3 ⟨1, 1, 2⟩ [5] (List.replicate 64 false) 0 2 ⟨0, 65535, 0, 16⟩ tab0
      (by decide) (by decide) (by decide) (by decide)).1,
    (claim_C3 ⟨1, 1, 2⟩ [5] (List.replicate 64 false) 0 2 ⟨0, 65535, 0, 16⟩ tab0
      (by decide) (by decide) (by decide) (by decide)).2⟩

theorem claim_C4_wit :
    (List.foldl writeBit [] [true, false, true] = [true, false, true]) ∧
    readBit [true, false, true] 1 = Except.ok false ∧
    (readBit [true, false, true] 3 = Except.error Err.ExhaustedInput ↔ 3 ≤ 3) :=
  ⟨(claim_C4 [true, false, true] 1).1,
    (claim_C4 [true, false, true] 1).2.1 (by decide),
    (claim_C4 [true, false, true] 3).2.2⟩

theorem claim_C5_wit :
    EncInv encInit ∧
    EncInv (encodeBit encInit true 2048) ∧
    DecInv ⟨0, 65535, 65535, 16⟩ ∧
    decodeBit (List.replicate 64 true) ⟨0, 65535, 65535, 16⟩ 2048 =
      Except.ok (false, ⟨0, 65535, 65535, 17⟩) ∧
    DecInv (⟨0, 65535, 65535, 17⟩ : DecSt) ∧
    LH ⟨0, 30000, 0, []⟩ ∧
    ¬ renormDone (EncSt.mk 0 30000 0 []).low (EncSt.mk 0 30000 0 []).high ∧
    dS (encStep ⟨0, 30000, 0, []⟩) = dS ⟨0, 30000, 0, []⟩ + 1 ∧
    decStep (List.replicate 64 true) ⟨0, 30000, 100, 16⟩ =
      Except.ok ⟨0, 60001, 201, 17⟩ ∧
    (DecSt.mk 0 60001 201 17).pos = (DecSt.mk 0 30000 100 16).pos + 1 :=
  ⟨by decide,
    (claim_C5 encInit true 2048 (List.replicate 64 true) ⟨0, 65535, 65535, 16⟩
      ⟨0, 65535, 65535, 17⟩ ⟨0, 30000, 100, 16⟩ ⟨0, 60001, 201, 17⟩ false).1
      (by decide) (by decide) (by decide),
    by decide, by decide,
    (claim_C5 encInit true 2048 (List.replicate 64 true) ⟨0, 65535, 65535, 16⟩
      ⟨0, 65535, 65535, 17⟩ ⟨0, 30000, 100, 16⟩ ⟨0, 60001, 201, 17⟩ false).2.1
      (by decide) (by decide) (by decide) (by decide),
    by decide, by decide,
    (claim_C5 ⟨0, 30000, 0, []⟩ true 2048 (List.replicate 64 true)
      ⟨0, 65535, 65535, 16⟩ ⟨0, 65535, 65535, 17⟩ ⟨0, 30000, 100, 16⟩
      ⟨0, 60001, 201, 17⟩ false).2.2.1 (by decide) (by decide),
    by decide,
    (claim_C5 ⟨0, 30000, 0, []⟩ true 2048 (List.replicate 64 true)
      ⟨0, 65535, 65535, 16⟩ ⟨0, 65535, 65535, 17⟩ ⟨0, 30000, 100, 16⟩
      ⟨0, 60001, 201, 17⟩ false).2.2.2 (by decide) (by decide)⟩

theorem claim_C6_wit :
    cfgOk ⟨1, 1, 1⟩ = true ∧
    ([(0 : Int)].length = (⟨1, 1, 1⟩ : Cfg).rows * (⟨1, 1, 1⟩ : Cfg).cols) ∧
    (∀ x ∈ [(0 : Int)], x.natAbs ≤ (⟨1, 1, 1⟩ : Cfg).bound) ∧
    encode ⟨1, 1, 1⟩ [0] = Except.ok (headerBytes ⟨1, 1, 1⟩ ++
      bitsToBytes (payloadBits (⟨1, 1, 1⟩ : Cfg).cols [0])) ∧
    ((decode ⟨1, 1, 1⟩ (headerBytes ⟨1, 1, 1⟩ ++
        bitsToBytes (payloadBits (⟨1, 1, 1⟩ : Cfg).cols [0])).dropLast =
        Except.error Err.ExhaustedInput ∨
      decode ⟨1, 1, 1⟩ (headerBytes ⟨1, 1, 1⟩ ++
        bitsToBytes (payloadBits (⟨1, 1, 1⟩ : Cfg).cols [0])).dropLast =
        Except.error Err.CorruptStream) ∧
     ∀ m', decode ⟨1, 1, 1⟩ (headerBytes ⟨1, 1, 1⟩ ++
        bitsToBytes (payloadBits (⟨1, 1, 1⟩ : Cfg).cols [0])).dropLast ≠
        Except.ok m') :=
  have he : encode ⟨1, 1, 1⟩ [0] = Except.ok (headerBytes ⟨1, 1, 1⟩ ++
      bitsToBytes (payloadBits (⟨1, 1, 1⟩ : Cfg).cols [0])) :=
    encode_eq_ok ⟨1, 1, 1⟩ [0] (by decide) (by decide) (by decide)
  ⟨by decide, by decide, by decide, he,
    claim_C6 ⟨1, 1, 1⟩ [0] _ (by decide) (by decide) (by decide) he⟩

theorem claim_C7_wit :
    (([0, 1, 0, 1, 1] : List Nat).length = 5) ∧
    ((decode ⟨1, 1, 1⟩ [9] = Except.error Err.MalformedHeader ↔
        hdrBad ⟨1, 1, 1⟩ [9] = true) ∧
     (decode ⟨1, 1, 1⟩ ([0, 1, 0, 1, 1] ++ [7]) = Except.error Err.MalformedHeader ↔
        hdrBad ⟨1, 1, 1⟩ [0, 1, 0, 1, 1] = true) ∧
     (hdrBad ⟨1, 1, 1⟩ [9] = false →
        1 ≤ (parseHdr [9]).1 ∧ 1 ≤ (parseHdr [9]).2.1 ∧ 1 ≤ (parseHdr [9]).2.2 ∧
        (parseHdr [9]).2.2 ≤ 255 ∧ (parseHdr [9]).1 = (⟨1, 1, 1⟩ : Cfg).rows ∧
        (parseHdr [9]).2.1 = (⟨1, 1, 1⟩ : Cfg).cols ∧
        (parseHdr [9]).2.2 = (⟨1, 1, 1⟩ : Cfg).bound)) :=
  ⟨by decide, claim_C7 ⟨1, 1, 1⟩ [9] [0, 1, 0, 1, 1] [7] (by decide)⟩

theorem claim_C8_wit :
    ((⟨true, true, [], fun _ => ⟨0, 0, fun _ _ => 0⟩⟩ : BsdsEnv).bsdsExists = true ∧
     (⟨true, true, [], fun _ => ⟨0, 0, fun _ _ => 0⟩⟩ : BsdsEnv).rotExists = true) ∧
    ((⟨true, true, [], fun _ _ => none⟩ : InetEnv).trainExists = true ∧
     (⟨true, true, [], fun _ _ => none⟩ : InetEnv).validExists = true) ∧
    (create_bsds ⟨true, true, [], fun _ => ⟨0, 0, fun _ _ => 0⟩⟩ =
        ⟨[], none, none, none⟩ ∧
     create_imagenet ⟨true, true, [], fun _ _ => none⟩ 3 2 = ⟨[], none, none, none⟩) :=
  ⟨⟨rfl, rfl⟩, ⟨rfl, rfl⟩, claim_C8 _ _ 3 2 ⟨rfl, rfl⟩ ⟨rfl, rfl⟩⟩

theorem claim_C9_wit :
    ¬((⟨false, false, List.range 100,
        fun _ => ⟨321, 481, fun r c => r + c⟩⟩ : BsdsEnv).bsdsExists = true ∧
      (⟨false, false, List.range 100,
        fun _ => ⟨321, 481, fun r c => r + c⟩⟩ : BsdsEnv).rotExists = true) ∧
    C9Post ⟨false, false, List.range 100, fun _ => ⟨321, 481, fun r c => r + c⟩⟩ :=
  ⟨by simp, claim_C9 _ (by simp)⟩

theorem claim_C10_wit :
    ¬((⟨false, false, [0, 1, 2],
        fun n _ => if n = 2 then none else some ⟨8, 8, fun _ _ => 0⟩⟩ :
          InetEnv).trainExists = true ∧
      (⟨false, false, [0, 1, 2],
        fun n _ => if n = 2 then none else some ⟨8, 8, fun _ _ => 0⟩⟩ :
          InetEnv).validExists = true) ∧
    C10Post ⟨false, false, [0, 1, 2],
      fun n _ => if n = 2 then none else some ⟨8, 8, fun _ _ => 0⟩⟩ 1 1 :=
  ⟨by simp, claim_C10 _ 1 1 (by simp)⟩

end Autoenc
